import Mathlib

/-!
Verification of the subtitle segmentation and format-conversion core of the
auto-subtitle repository.

The TypeScript sources `src/app/lib/transcription.ts`,
`src/app/lib/subtitle-converter.ts` and the parser embedded in
`src/app/components/SubtitleEditor.tsx` are shallowly embedded here.
JS strings are modelled as `List Char`, JS numbers as `ℚ` (the values that
occur are exact decimal fractions), and JS `NaN`-producing parses as
`Option ℚ`.  JS truthiness of numbers (`!x` true at `0`) and of strings
(`!s` true at the empty string) is modelled explicitly where the code
relies on it.
-/

set_option maxHeartbeats 1000000

namespace AutoSub

/-- Whitespace test used by `String.prototype.trim` (space, tab, CR, LF —
the whitespace characters that occur in this code base). -/
def isWs (c : Char) : Bool := c.isWhitespace

/-- Left half of `String.prototype.trim`. -/
def trimLeft (l : List Char) : List Char := l.dropWhile isWs

/-- `String.prototype.trim` on a list of characters: drop whitespace from
both ends. -/
def trim (l : List Char) : List Char :=
  ((trimLeft l).reverse.dropWhile isWs).reverse

/-- Prepend a character to the first piece of a split result. -/
def consHd (c : Char) : List (List Char) → List (List Char)
  | [] => [[c]]
  | r :: rs => (c :: r) :: rs

/-- JS `str.split(sep)` for a one-character separator: every occurrence
splits, empty pieces are kept, and the empty string yields one empty
piece. -/
def splitCh (sep : Char) : List Char → List (List Char)
  | [] => [[]]
  | c :: cs =>
    if c = sep then [] :: splitCh sep cs else consHd c (splitCh sep cs)

/-- The literal VTT header line. -/
def headerChars : List Char := ['W', 'E', 'B', 'V', 'T', 'T']

/-- Does the line begin with the three-character VTT arrow token? -/
def startsArrow (l : List Char) : Bool :=
  match l with
  | a :: b :: c :: _ => a = '-' && b = '-' && c = '>'
  | _ => false

/-- JS `line.includes(arrow token)`: substring search for the arrow. -/
def includesArrow : List Char → Bool
  | [] => false
  | c :: cs => startsArrow (c :: cs) || includesArrow cs

/-- JS `line.split(arrow token)`: split on every occurrence of the
three-character arrow.  A list shorter than three characters cannot
contain the arrow and is a single piece. -/
def splitArrow : List Char → List (List Char)
  | a :: b :: c :: rest =>
    if a = '-' ∧ b = '-' ∧ c = '>' then [] :: splitArrow rest
    else consHd a (splitArrow (b :: c :: rest))
  | l => [l]

/-- JS `array.join(single space)`. -/
def joinSpace : List (List Char) → List Char
  | [] => []
  | [x] => x
  | x :: xs => x ++ ' ' :: joinSpace xs

/-- One decimal digit as a character. -/
def digitChar (d : Nat) : Char := Char.ofNat (48 + d)

/-- Accumulator loop of the decimal rendering of a natural number.  The
first argument is fuel (structural recursion); any fuel at least the
number processed renders it fully. -/
def natCharsCore : Nat → Nat → List Char → List Char
  | _, 0, acc => acc
  | 0, _ + 1, acc => acc
  | fuel + 1, n + 1, acc =>
    natCharsCore fuel ((n + 1) / 10) (digitChar ((n + 1) % 10) :: acc)

/-- JS `Number.prototype.toString` for a nonnegative integer. -/
def natChars (n : Nat) : List Char :=
  if n = 0 then ['0'] else natCharsCore n n []

/-- JS `Number.prototype.toString` for an integer. -/
def intChars (i : Int) : List Char :=
  if i < 0 then '-' :: natChars i.natAbs else natChars i.toNat

/-- JS `String.prototype.padStart(w, zero digit)`. -/
def padZero (w : Nat) (l : List Char) : List Char :=
  List.replicate (w - l.length) '0' ++ l

/-- JS truncation toward zero, as used by the JS remainder operator. -/
def jsTrunc (q : ℚ) : Int := if q < 0 then Int.ceil q else Int.floor q

/-- The JS remainder operator on numbers: `a % b = a - b * trunc (a / b)`. -/
def jsMod (a b : ℚ) : ℚ := a - b * (jsTrunc (a / b) : ℚ)

/-- `formatTime` inside `formatVTTSegment` (transcription.ts, lines 205-212):
seconds to `HH:MM:SS.mmm` with zero padding. -/
def formatTime (seconds : ℚ) : List Char :=
  let hours := Int.floor (seconds / 3600)
  let minutes := Int.floor (jsMod seconds 3600 / 60)
  let secs := Int.floor (jsMod seconds 60)
  let ms := Int.floor (jsMod seconds 1 * 1000)
  padZero 2 (intChars hours) ++ ':' :: padZero 2 (intChars minutes) ++ ':' ::
    padZero 2 (intChars secs) ++ '.' :: padZero 3 (intChars ms)

/-- `formatVTTSegment` (transcription.ts, lines 204-215).  `s` and `e` are
the cue's start and end in seconds. -/
def formatVTTSegment (index : Nat) (s e : ℚ) (text : List Char) :
    List Char :=
  natChars index ++ '\n' :: formatTime s ++ ' ' :: '-' :: '-' :: '>' ::
    ' ' :: formatTime e ++ '\n' :: text ++ ['\n', '\n']

/-- Numeric value of a list of decimal digit characters. -/
def digitsVal (l : List Char) : Nat :=
  l.foldl (fun a c => 10 * a + (c.toNat - 48)) 0

/-- The unsigned digit-run reading shared by `parseInt`. -/
def jsParseIntCore (m : List Char) : Option Nat :=
  let ds := m.takeWhile Char.isDigit
  if ds = [] then none else some (digitsVal ds)

/-- JS `parseInt` in its decimal reading: optional leading whitespace and
sign, then the leading digit run; `NaN` (here `none`) when no digit is
found. -/
def jsParseInt (l : List Char) : Option Int :=
  match trimLeft l with
  | [] => none
  | c :: r =>
    if c = '-' then (jsParseIntCore r).map fun n => -(n : Int)
    else if c = '+' then (jsParseIntCore r).map fun n => (n : Int)
    else (jsParseIntCore (c :: r)).map fun n => (n : Int)

/-- Value of the fractional-digit run after the decimal point. -/
def fracVal (l : List Char) : ℚ :=
  (digitsVal l : ℚ) / (10 : ℚ) ^ l.length

/-- Unsigned part of JS `parseFloat`: digits, optionally a dot and more
digits; `none` when no digit at all is found. -/
def jsParseFloatCore (m : List Char) : Option ℚ :=
  let ds := m.takeWhile Char.isDigit
  let rest := m.dropWhile Char.isDigit
  if rest.headD ' ' = '.' then
    let fs := (rest.drop 1).takeWhile Char.isDigit
    if ds = [] ∧ fs = [] then none
    else some ((digitsVal ds : ℚ) + fracVal fs)
  else if ds = [] then none else some ((digitsVal ds : ℚ))

/-- JS `parseFloat`: optional leading whitespace and sign, then digits with
an optional fractional part; `NaN` (here `none`) when no digit is found. -/
def jsParseFloat (l : List Char) : Option ℚ :=
  match trimLeft l with
  | [] => none
  | c :: r =>
    if c = '-' then (jsParseFloatCore r).map Neg.neg
    else if c = '+' then jsParseFloatCore r
    else jsParseFloatCore (c :: r)

/-- `timeToSeconds` (subtitle-converter.ts, lines 8-15).  The result is
`none` exactly when the JS computation yields `NaN`. -/
def timeToSeconds (timeStr : List Char) : Option ℚ :=
  if (splitCh ':' timeStr).length = 3 then
    match jsParseInt ((splitCh ':' timeStr).getD 0 []),
        jsParseInt ((splitCh ':' timeStr).getD 1 []),
        jsParseFloat ((splitCh ':' timeStr).getD 2 []) with
    | some h, some m, some s => some ((h : ℚ) * 3600 + (m : ℚ) * 60 + s)
    | _, _, _ => none
  else some 0

/-- `SubtitleEntry` (subtitle-converter.ts, lines 1-5). -/
structure SubtitleEntry where
  startTime : List Char
  endTime : List Char
  text : List Char
deriving DecidableEq, Repr

/-- The mutable locals of the `parseVTT` loop of subtitle-converter.ts:
emitted `entries`, the pending `currentEntry` (its two optional fields),
the pending `textBuffer`, and the `state` counter. -/
structure PState where
  entries : List SubtitleEntry
  curStart : Option (List Char)
  curEnd : Option (List Char)
  buf : List (List Char)
  st : Nat
deriving DecidableEq, Repr

def initPState : PState := ⟨[], none, none, [], 0⟩

/-- The emission guard `textBuffer.length > 0 && currentEntry.startTime`
(JS truthiness: an empty start string blocks emission). -/
def emitGuard (p : PState) : Bool :=
  !p.buf.isEmpty &&
    (match p.curStart with
     | some s => !s.isEmpty
     | none => false)

/-- `entries.push({startTime, endTime: currentEntry.endTime!, text:
textBuffer.join(space)})` followed by the resets of the push branches.
`getD []` is the JS reading of a possibly-`undefined` field. -/
def pushEntry (p : PState) : PState :=
  { p with
    entries := p.entries ++
      [⟨p.curStart.getD [], p.curEnd.getD [], joinSpace p.buf⟩],
    curStart := none, curEnd := none, buf := [] }

/-- First piece of `line.split(arrow).map(trim)`. -/
def arrowStart (line : List Char) : List Char :=
  trim ((splitArrow line).getD 0 [])

/-- Second piece of `line.split(arrow).map(trim)`. -/
def arrowEnd (line : List Char) : List Char :=
  trim ((splitArrow line).getD 1 [])

/-- Body of one iteration of the `parseVTT` loop of subtitle-converter.ts,
taking the already-trimmed line.  The state-1 no-arrow branch folds in the
`i--` reprocessing: the discarded line is immediately re-read in state 0
where (being non-blank, non-header and arrowless) it only moves the
machine back to state 1. -/
def pstepLine (p : PState) (line : List Char) : PState :=
  if line = headerChars then p
  else if line = [] then
    if emitGuard p then { pushEntry p with st := 0 } else { p with st := 0 }
  else if p.st = 0 then
    if includesArrow line then
      { p with curStart := some (arrowStart line),
               curEnd := some (arrowEnd line), st := 2 }
    else { p with st := 1 }
  else if p.st = 1 then
    if includesArrow line then
      { p with curStart := some (arrowStart line),
               curEnd := some (arrowEnd line), st := 2 }
    else { p with curStart := none, curEnd := none, buf := [], st := 1 }
  else if p.st = 2 then
    if includesArrow line then
      { (if emitGuard p then pushEntry p else p) with
        curStart := some (arrowStart line),
        curEnd := some (arrowEnd line), buf := [], st := 2 }
    else { p with buf := p.buf ++ [line] }
  else p

/-- One iteration of the `parseVTT` loop on a raw line: the line is
trimmed first (`const line = lines[i].trim()`). -/
def pstep (p : PState) (raw : List Char) : PState :=
  pstepLine p (trim raw)

/-- The end-of-input flush of `parseVTT`. -/
def pfinal (p : PState) : List SubtitleEntry :=
  if emitGuard p then (pushEntry p).entries else p.entries

/-- `parseVTT` (subtitle-converter.ts, lines 25-101). -/
def parseVTT (vttContent : List Char) : List SubtitleEntry :=
  pfinal ((splitCh '\n' vttContent).foldl pstep initPState)

/-- One cue block written by `convertToVTT` (label `index + 1`, timing
line, text, blank separator). -/
def vttBlock (index : Nat) (e : SubtitleEntry) : List Char :=
  natChars (index + 1) ++ '\n' :: e.startTime ++ ' ' :: '-' :: '-' :: '>' ::
    ' ' :: e.endTime ++ '\n' :: e.text ++ ['\n', '\n']

/-- The `entries.forEach` of `convertToVTT`, carrying the running index. -/
def convertGo : Nat → List SubtitleEntry → List Char
  | _, [] => []
  | i, e :: es => vttBlock i e ++ convertGo (i + 1) es

/-- `convertToVTT` (subtitle-converter.ts, lines 104-114). -/
def convertToVTT (entries : List SubtitleEntry) : List Char :=
  headerChars ++ '\n' :: '\n' :: convertGo 0 entries

/-- The cue record of SubtitleEditor.tsx: it carries the sequence label
`id` in addition to the converter's fields. -/
structure EditorEntry where
  id : List Char
  startTime : List Char
  endTime : List Char
  text : List Char
deriving DecidableEq, Repr

/-- Mutable locals of the editor's `parseVTT` loop
(SubtitleEditor.tsx, lines 149-229). -/
structure EState where
  entries : List EditorEntry
  curId : Option (List Char)
  curStart : Option (List Char)
  curEnd : Option (List Char)
  buf : List (List Char)
  st : Nat
deriving DecidableEq, Repr

def initEState : EState := ⟨[], none, none, none, [], 0⟩

/-- Emission guard of the editor parser (same JS truthiness test). -/
def eEmitGuard (p : EState) : Bool :=
  !p.buf.isEmpty &&
    (match p.curStart with
     | some s => !s.isEmpty
     | none => false)

/-- `entries.push` of the editor parser: the label is
`currentEntry.id ?? entries.length.toString()` — the zero-based emission
index when no explicit label was read. -/
def ePushEntry (p : EState) : EState :=
  { p with
    entries := p.entries ++
      [⟨p.curId.getD (natChars p.entries.length), p.curStart.getD [],
        p.curEnd.getD [], joinSpace p.buf⟩],
    curId := none, curStart := none, curEnd := none, buf := [] }

/-- One iteration of the editor's `parseVTT` loop.  Differences from the
converter's parser: a state-0 non-arrow line is stored as the label
(`currentEntry = (id := line)`, a full replacement), the state-1 arrow
branch spreads `currentEntry` and therefore keeps the stored label, and
the state-1 no-arrow reprocessing lands in state 0 where the same line is
stored as a fresh label. -/
def estepLine (p : EState) (line : List Char) : EState :=
  if line = headerChars then p
  else if line = [] then
    if eEmitGuard p then { ePushEntry p with st := 0 } else { p with st := 0 }
  else if p.st = 0 then
    if includesArrow line then
      { p with curId := none, curStart := some (arrowStart line),
               curEnd := some (arrowEnd line), st := 2 }
    else { p with curId := some line, curStart := none, curEnd := none,
                  st := 1 }
  else if p.st = 1 then
    if includesArrow line then
      { p with curStart := some (arrowStart line),
               curEnd := some (arrowEnd line), st := 2 }
    else { p with curId := some line, curStart := none, curEnd := none,
                  buf := [], st := 1 }
  else if p.st = 2 then
    if includesArrow line then
      { (if eEmitGuard p then ePushEntry p else p) with
        curId := none, curStart := some (arrowStart line),
        curEnd := some (arrowEnd line), buf := [], st := 2 }
    else { p with buf := p.buf ++ [line] }
  else p

/-- One iteration of the editor's `parseVTT` loop on a raw line: the line
is trimmed first. -/
def estep (p : EState) (raw : List Char) : EState :=
  estepLine p (trim raw)

/-- The end-of-input flush of the editor's `parseVTT`. -/
def efinal (p : EState) : List EditorEntry :=
  if eEmitGuard p then (ePushEntry p).entries else p.entries

/-- `parseVTT` of SubtitleEditor.tsx (lines 149-229). -/
def editorParseVTT (vttContent : List Char) : List EditorEntry :=
  efinal ((splitCh '\n' vttContent).foldl estep initEState)

/-- JS word-character test (the regex word class: ASCII letters, digits,
underscore). -/
def isWordChar (c : Char) : Bool := c.isAlphanum || c = '_'

/-- The letters matched by the leading group of the sanitization regex of
`splitTextIntoChunks` (transcription.ts, line 128). -/
def isAmPmLetter (c : Char) : Bool := c = 'A' || c = 'a' || c = 'P' || c = 'p'

/-- JS `toLowerCase` restricted to the letters the group can match. -/
def lowerAP (c : Char) : Char :=
  if c = 'A' then 'a' else if c = 'P' then 'p' else c

/-- Left-to-right global replacement of the sanitization regex (word
boundary, letter, optional dot, the letter m, dot) by the lowercased
letter followed by m.  The boolean records whether the current position is
at a word boundary (start of string, or previous character not a word
character).  After a replacement the previous character is the consumed
final dot, so the boundary flag is true. -/
def sanitizeGo : Bool → List Char → List Char
  | _, [] => []
  | atB, c :: '.' :: 'm' :: '.' :: rest' =>
    if atB && isAmPmLetter c then lowerAP c :: 'm' :: sanitizeGo true rest'
    else c :: sanitizeGo (!isWordChar c) ('.' :: 'm' :: '.' :: rest')
  | atB, c :: 'm' :: '.' :: rest' =>
    if atB && isAmPmLetter c then lowerAP c :: 'm' :: sanitizeGo true rest'
    else c :: sanitizeGo (!isWordChar c) ('m' :: '.' :: rest')
  | _, c :: rest => c :: sanitizeGo (!isWordChar c) rest

/-- The sanitization step of `splitTextIntoChunks` (transcription.ts,
line 128). -/
def sanitize (text : List Char) : List Char := sanitizeGo true text

/-- The punctuation class of the sentence-splitting regex
(transcription.ts, line 133). -/
def isPunct (c : Char) : Bool := c = '.' || c = '!' || c = '?' || c = ','

/-- JS `sanitized.split` on the lookbehind regex: split at every maximal
whitespace run that immediately follows a punctuation character, the run
itself being consumed.  The first boolean is true while the scan is
consuming such a whitespace run; the second records whether the previous
character was punctuation. -/
def splitPunctGo : Bool → Bool → List Char → List (List Char)
  | _, _, [] => [[]]
  | true, _, c :: cs =>
    if isWs c then splitPunctGo true false cs
    else consHd c (splitPunctGo false (isPunct c) cs)
  | false, prevP, c :: cs =>
    if prevP && isWs c then [] :: splitPunctGo true false cs
    else consHd c (splitPunctGo false (isPunct c) cs)

/-- The `TextChunk` record of transcription.ts (lines 19-23); the source
field `end` is named `stop` here because `end` is a Lean keyword. -/
structure TextChunk where
  text : List Char
  start : ℚ
  stop : ℚ
deriving DecidableEq, Repr

/-- The mutable locals of the `legacyChunking` word loop. -/
structure LCState where
  result : List TextChunk
  cur : List Char
  curStart : ℚ
  charCount : Nat
deriving DecidableEq, Repr

/-- The if/else at the head of one `words.forEach` iteration of
`legacyChunking` (transcription.ts, lines 180-190); `tpc` is
`timePerCharacter`.  Note that the `charCount` update of the else branch
tests the already-updated `currentChunk`, as the source does. -/
def lcStepCore (tpc : ℚ) (p : LCState) (word : List Char) : LCState :=
  if p.cur ≠ [] ∧ p.charCount + word.length + 1 > 60 then
    { result := p.result ++
        [⟨trim p.cur, p.curStart, p.curStart + (p.charCount : ℚ) * tpc⟩],
      cur := word, curStart := p.curStart + (p.charCount : ℚ) * tpc,
      charCount := word.length }
  else
    { p with
      cur := p.cur ++ (if p.cur ≠ [] then [' '] else []) ++ word,
      charCount := p.charCount +
        (if p.cur ++ (if p.cur ≠ [] then [' '] else []) ++ word ≠ []
          then 1 else 0) + word.length }

/-- The final flushing of `legacyChunking` (transcription.ts, lines
192-195), applied at the last word; `dEnd` is `startTime + duration`. -/
def lcFlush (dEnd : ℚ) (p1 : LCState) : LCState :=
  if p1.cur ≠ [] then
    { p1 with result := p1.result ++ [⟨trim p1.cur, p1.curStart, dEnd⟩] }
  else p1

/-- One full `words.forEach` iteration of `legacyChunking`; `isLast` is
`idx === words.length - 1`. -/
def lcStep (tpc dEnd : ℚ) (p : LCState) (word : List Char) (isLast : Bool) :
    LCState :=
  if isLast then lcFlush dEnd (lcStepCore tpc p word)
  else lcStepCore tpc p word

/-- The `words.forEach` loop of `legacyChunking`. -/
def lcRun (tpc dEnd : ℚ) : LCState → List (List Char) → LCState
  | p, [] => p
  | p, w :: ws =>
    match ws with
    | [] => lcStep tpc dEnd p w true
    | _ :: _ => lcRun tpc dEnd (lcStep tpc dEnd p w false) ws

/-- `legacyChunking` (transcription.ts, lines 169-199): `timePerCharacter`
is `duration / text.length`, the words come from `text.split(space)`. -/
def legacyChunking (text : List Char) (duration startTime : ℚ) :
    List TextChunk :=
  (lcRun (duration / (text.length : ℚ)) (startTime + duration)
    ⟨[], [], startTime, 0⟩ (splitCh ' ' text)).result

/-- The `rawChunks.forEach` body of `splitTextIntoChunks` (transcription.ts,
lines 143-163): the accumulator is the built chunk list and
`currentStart`.  A long trimmed sentence is subdivided by `legacyChunking`
with duration `trimmed.length * timePerCharacter`, and `currentStart`
advances to the last sub-chunk's end (staying put when there is none). -/
def stcStep (tpc : ℚ) (acc : List TextChunk × ℚ) (sentence : List Char) :
    List TextChunk × ℚ :=
  if trim sentence = [] then acc
  else if (trim sentence).length > 60 then
    (acc.1 ++
      legacyChunking (trim sentence) (((trim sentence).length : ℚ) * tpc)
        acc.2,
      match (legacyChunking (trim sentence)
          (((trim sentence).length : ℚ) * tpc) acc.2).getLast? with
      | some c => c.stop
      | none => acc.2)
  else
    (acc.1 ++ [⟨trim sentence, acc.2,
        acc.2 + ((trim sentence).length : ℚ) * tpc⟩],
      acc.2 + ((trim sentence).length : ℚ) * tpc)

/-- `splitTextIntoChunks` (transcription.ts, lines 124-166): sanitize, split
on punctuation boundaries; with a single raw chunk fall back to
`legacyChunking` on the sanitized text, otherwise process each raw chunk
with `timePerCharacter = duration / sanitized.length`. -/
def splitTextIntoChunks (text : List Char) (duration startTime : ℚ) :
    List TextChunk :=
  if (splitPunctGo false false (sanitize text)).length = 1 then
    legacyChunking (sanitize text) duration startTime
  else
    ((splitPunctGo false false (sanitize text)).foldl
      (stcStep (duration / ((sanitize text).length : ℚ))) ([], startTime)).1

/-- The chunk loop of `createBasicVTT` (transcription.ts, lines 105-116):
the loop advances `i` in steps of seven words; here the not-yet-consumed
suffix of `words` is carried for structural recursion, `total` is
`words.length`, and `index` is the running cue label.  Fewer than seven
remaining words form the final chunk (`slice` clips). -/
def basicGo (total : Nat) : List (List Char) → Nat → Nat → List Char
  | [], _, _ => []
  | w1 :: w2 :: w3 :: w4 :: w5 :: w6 :: w7 :: rest, i, index =>
    formatVTTSegment index ((i : ℚ) / (total : ℚ) * 100)
      (min (((i : ℚ) + 7) / (total : ℚ) * 100) 100)
      (joinSpace [w1, w2, w3, w4, w5, w6, w7]) ++
      basicGo total rest (i + 7) (index + 1)
  | l, i, index =>
    formatVTTSegment index ((i : ℚ) / (total : ℚ) * 100)
      (min (((i : ℚ) + 7) / (total : ℚ) * 100) 100) (joinSpace l)

/-- `createBasicVTT` (transcription.ts, lines 99-119). -/
def createBasicVTT (fullText : List Char) : List Char :=
  let words := splitCh ' ' fullText
  headerChars ++ '\n' :: '\n' :: basicGo words.length words 0 1

/-- `TranscriptionSegment` (transcription.ts, lines 11-16); the `id` field
is never read by the segmenter and is omitted, and the source field `end`
is named `stop` here because `end` is a Lean keyword. -/
structure TranscriptionSegment where
  start : ℚ
  stop : ℚ
  text : List Char
deriving DecidableEq, Repr

/-- The cue-level view of one `segments.forEach` iteration of
`createOptimizedVTT` (transcription.ts, lines 73-90): the guard
`!segment.start || !segment.end || !segment.text` (JS falsiness: a zero
time or the empty text) skips the segment; a segment with
`text.length <= 70 || duration < 4.0` passes through as one chunk;
otherwise `splitTextIntoChunks` is applied. -/
def segmentChunks (seg : TranscriptionSegment) : List TextChunk :=
  if seg.start = 0 ∨ seg.stop = 0 ∨ seg.text = [] then []
  else if (trim seg.text).length ≤ 70 ∨ seg.stop - seg.start < 4 then
    [⟨trim seg.text, seg.start, seg.stop⟩]
  else splitTextIntoChunks (trim seg.text) (seg.stop - seg.start) seg.start

/-- `createOptimizedVTT` (transcription.ts, lines 63-93): each segment's
chunks are rendered with the running 1-based `segmentIndex`. -/
def createOptimizedVTT (segments : List TranscriptionSegment)
    (fullText : List Char) : List Char :=
  if segments = [] then createBasicVTT fullText
  else
    (segments.foldl
      (fun acc seg =>
        (segmentChunks seg).foldl
          (fun a ch =>
            (a.1 ++ formatVTTSegment a.2 ch.start ch.stop ch.text, a.2 + 1))
          acc)
      (headerChars ++ ['\n', '\n'], 1)).1

/-! ### Specification-side shapes, invariants, and instrumented variants -/

/-- The HH:MM:SS.mmm timestamp shape described by the specification, built
with the same zero padding the serializer uses. -/
def tsShape (H M S ms : Nat) : List Char :=
  padZero 2 (natChars H) ++ ':' :: padZero 2 (natChars M) ++ ':' ::
    padZero 2 (natChars S) ++ '.' :: padZero 3 (natChars ms)

/-- The chunks form a contiguous chain: the first starts at `s` and each
chunk starts where the previous one ended. -/
def Chain2 : ℚ → List TextChunk → Prop
  | _, [] => True
  | s, c :: cs => c.start = s ∧ Chain2 c.stop cs

/-- End of the last chunk; `s` when there is none. -/
def lastEnd (s : ℚ) (l : List TextChunk) : ℚ :=
  match l.getLast? with
  | some c => c.stop
  | none => s

/-- Loop invariant of `legacyChunking`: the accumulated chunks chain from
`s0` and the pending chunk starts at the chain's end. -/
def LCInv (s0 : ℚ) (p : LCState) : Prop :=
  Chain2 s0 p.result ∧ p.curStart = lastEnd s0 p.result

/-- Invariant of the `rawChunks.forEach` fold of `splitTextIntoChunks`. -/
def STCInv (s0 : ℚ) (acc : List TextChunk × ℚ) : Prop :=
  Chain2 s0 acc.1 ∧ acc.2 = lastEnd s0 acc.1

/-- The list ends in no whitespace character (vacuous for the empty
list). -/
def LastNotWs (l : List Char) : Prop :=
  ∀ c, l.getLast? = some c → isWs c = false

/-- The list begins with no whitespace character (vacuous for the empty
list). -/
def HeadNotWs (l : List Char) : Prop :=
  ∀ c, l.head? = some c → isWs c = false

/-- A well-formed cue text or buffered line: nonempty, no whitespace at
either end, single-line. -/
def GoodLine (l : List Char) : Prop :=
  l ≠ [] ∧ HeadNotWs l ∧ LastNotWs l ∧ '\n' ∉ l

/-- Parser-state invariant: all buffered lines and all emitted texts are
well formed. -/
def PGood (p : PState) : Prop :=
  (∀ l ∈ p.buf, GoodLine l) ∧ ∀ e ∈ p.entries, GoodLine e.text

/-- The 73-character two-fragment text of the C2 counterexample. -/
def c2text : List Char :=
  List.replicate 35 'a' ++ [','] ++ [' '] ++ List.replicate 36 'b'

/-- The end-to-end scenario segment text of §8 property 7 of the spec. -/
def c3text : List Char :=
  ("This is a very long sentence that definitely exceeds seventy " ++
    "characters in total length, testing the splitter.").toList

/-- Instrumented `entries.push` of the parser: the two non-null assertion
reads `currentEntry.startTime!` and `currentEntry.endTime!` fail when the
field is absent. -/
def pushEntryE (p : PState) : Except Unit PState :=
  match p.curStart, p.curEnd with
  | some _, some _ => .ok (pushEntry p)
  | _, _ => .error ()

/-- Instrumented `parseVTT` loop body: every non-null assertion is
checked; all other branches are the plain ones. -/
def pstepLineE (p : PState) (line : List Char) : Except Unit PState :=
  if line = headerChars then .ok p
  else if line = [] then
    if emitGuard p then do
      let q ← pushEntryE p
      .ok { q with st := 0 }
    else .ok { p with st := 0 }
  else if p.st = 0 then
    if includesArrow line then
      .ok { p with curStart := some (arrowStart line),
                   curEnd := some (arrowEnd line), st := 2 }
    else .ok { p with st := 1 }
  else if p.st = 1 then
    if includesArrow line then
      .ok { p with curStart := some (arrowStart line),
                   curEnd := some (arrowEnd line), st := 2 }
    else .ok { p with curStart := none, curEnd := none, buf := [], st := 1 }
  else if p.st = 2 then
    if includesArrow line then
      if emitGuard p then do
        let q ← pushEntryE p
        .ok { q with curStart := some (arrowStart line),
                     curEnd := some (arrowEnd line), buf := [], st := 2 }
      else
        .ok { p with curStart := some (arrowStart line),
                     curEnd := some (arrowEnd line), buf := [], st := 2 }
    else .ok { p with buf := p.buf ++ [line] }
  else .ok p

/-- Instrumented line loop of `parseVTT`. -/
def prunE : PState → List (List Char) → Except Unit PState
  | p, [] => .ok p
  | p, raw :: rest => do
    let q ← pstepLineE p (trim raw)
    prunE q rest

/-- Instrumented end-of-input flush. -/
def pfinalE (p : PState) : Except Unit (List SubtitleEntry) :=
  if emitGuard p then do
    let q ← pushEntryE p
    .ok q.entries
  else .ok p.entries

/-- Instrumented `parseVTT`. -/
def parseVTTE (content : List Char) : Except Unit (List SubtitleEntry) := do
  let p ← prunE initPState (splitCh '\n' content)
  pfinalE p

/-- Instrumented `createBasicVTT`: fails iff the word count — the
denominator of the proportional timing — is zero. -/
def createBasicVTTE (fullText : List Char) : Except Unit (List Char) :=
  if (splitCh ' ' fullText).length = 0 then .error ()
  else .ok (createBasicVTT fullText)

/-- Instrumented `splitTextIntoChunks`: fails iff the sanitized length —
the denominator of `timePerCharacter` (also the denominator used by the
no-punctuation `legacyChunking` fallback) — is zero.  The `legacyChunking`
calls inside the punctuation path always receive nonempty trimmed
fragments, guarded by the code itself. -/
def splitTextIntoChunksE (text : List Char) (duration startTime : ℚ) :
    Except Unit (List TextChunk) :=
  if (sanitize text).length = 0 then .error ()
  else .ok (splitTextIntoChunks text duration startTime)

/-- Instrumented `segmentChunks`. -/
def segmentChunksE (seg : TranscriptionSegment) :
    Except Unit (List TextChunk) :=
  if seg.start = 0 ∨ seg.stop = 0 ∨ seg.text = [] then .ok []
  else if (trim seg.text).length ≤ 70 ∨ seg.stop - seg.start < 4 then
    .ok [⟨trim seg.text, seg.start, seg.stop⟩]
  else splitTextIntoChunksE (trim seg.text) (seg.stop - seg.start) seg.start

/-- Invariant: the parser's pending start and end fields are set
together. -/
def POk (p : PState) : Prop := p.curStart.isSome = p.curEnd.isSome

/-- Structurally valid timestamp string for round-tripping: nonempty, only
non-whitespace characters, no dashes (so no arrow token can arise inside
it).  Every HH:MM:SS.mmm digit timestamp satisfies this. -/
def TsOk (ts : List Char) : Prop :=
  ts ≠ [] ∧ ∀ c ∈ ts, isWs c = false ∧ c ≠ '-'

/-- Round-trip-safe cue text: one nonempty line, trimmed at both ends, not
the header literal, containing no newline and no arrow token. -/
def TextOk (t : List Char) : Prop :=
  t ≠ [] ∧ isWs (t.headD 'x') = false ∧ isWs (t.getLastD 'x') = false
    ∧ '\n' ∉ t ∧ includesArrow t = false ∧ t ≠ headerChars

/-- Round-trip-safe cue: valid timestamps and a safe single-line text. -/
def wfEntry (e : SubtitleEntry) : Prop :=
  TsOk e.startTime ∧ TsOk e.endTime ∧ TextOk e.text

/-- The parser state with no pending data and accumulated entries `E`. -/
def Clean (E : List SubtitleEntry) : PState := ⟨E, none, none, [], 0⟩

/-- The editor parser state with no pending data and accumulated entries
`E` — the state right after a blank line (or at the start of input). -/
def ECleanE (E : List EditorEntry) : EState := ⟨E, none, none, none, [], 0⟩

/-! ### Character-class and decimal-rendering lemmas -/

lemma ne_of_digit_of_not {c d : Char} (hc : c.isDigit = true)
    (hd : d.isDigit = false) : c ≠ d := by
  intro h; rw [h, hd] at hc; exact Bool.noConfusion hc

lemma not_ws_of_digit {c : Char} (hc : c.isDigit = true) : isWs c = false := by
  unfold isWs Char.isWhitespace at *
  by_contra h
  simp only [Bool.not_eq_false, Bool.or_eq_true, decide_eq_true_eq] at h
  rcases h with ((h | h) | h) | h <;> subst h <;> simp [Char.isDigit] at hc

lemma digitChar_isDigit {d : Nat} (hd : d < 10) :
    (digitChar d).isDigit = true := by
  interval_cases d <;> decide

lemma digitChar_toNat {d : Nat} (hd : d < 10) : (digitChar d).toNat = 48 + d := by
  interval_cases d <;> decide

lemma natCharsCore_zero (fuel : Nat) (acc : List Char) :
    natCharsCore fuel 0 acc = acc := by
  cases fuel <;> rfl

lemma natCharsCore_append (fuel : Nat) :
    ∀ n acc, natCharsCore fuel n acc = natCharsCore fuel n [] ++ acc := by
  induction fuel with
  | zero =>
    intro n acc
    match n with
    | 0 => rfl
    | m + 1 => rfl
  | succ f ih =>
    intro n acc
    match n with
    | 0 => rfl
    | m + 1 =>
      show natCharsCore f _ _ = natCharsCore f _ _ ++ acc
      rw [ih _ (digitChar ((m + 1) % 10) :: acc),
        ih _ [digitChar ((m + 1) % 10)]]
      simp

lemma natCharsCore_digits (fuel : Nat) :
    ∀ n, ∀ c ∈ natCharsCore fuel n [], c.isDigit = true := by
  induction fuel with
  | zero =>
    intro n c hc
    match n with
    | 0 => simp [natCharsCore] at hc
    | m + 1 => simp [natCharsCore] at hc
  | succ f ih =>
    intro n c hc
    match n with
    | 0 => simp [natCharsCore] at hc
    | m + 1 =>
      rw [show natCharsCore (f + 1) (m + 1) [] =
          natCharsCore f ((m + 1) / 10) [digitChar ((m + 1) % 10)] from rfl,
        natCharsCore_append] at hc
      rcases List.mem_append.mp hc with h | h
      · exact ih _ c h
      · simp at h; subst h
        exact digitChar_isDigit (Nat.mod_lt _ (by omega))

lemma natChars_digits (n : Nat) : ∀ c ∈ natChars n, c.isDigit = true := by
  unfold natChars
  split
  · intro c hc; simp at hc; subst hc; decide
  · exact natCharsCore_digits n n

lemma natChars_ne_nil (n : Nat) : natChars n ≠ [] := by
  unfold natChars
  split
  · simp
  · match n, (by assumption : n ≠ 0) with
    | m + 1, _ =>
      rw [show natCharsCore (m + 1) (m + 1) [] =
          natCharsCore m ((m + 1) / 10) [digitChar ((m + 1) % 10)] from rfl,
        natCharsCore_append]
      simp

lemma digitsVal_from (l : List Char) :
    ∀ a : Nat, l.foldl (fun x c => 10 * x + (c.toNat - 48)) a
      = a * 10 ^ l.length + digitsVal l := by
  induction l with
  | nil => intro a; simp [digitsVal]
  | cons c cs ih =>
    intro a
    show List.foldl _ (10 * a + (c.toNat - 48)) cs = _
    rw [ih (10 * a + (c.toNat - 48))]
    have h2 : digitsVal (c :: cs)
        = (10 * 0 + (c.toNat - 48)) * 10 ^ cs.length + digitsVal cs := by
      show List.foldl _ (10 * 0 + (c.toNat - 48)) cs = _
      rw [ih (10 * 0 + (c.toNat - 48))]
    rw [List.length_cons, h2]
    ring

lemma digitsVal_append (a b : List Char) :
    digitsVal (a ++ b) = digitsVal a * 10 ^ b.length + digitsVal b := by
  show List.foldl _ 0 (a ++ b) = _
  rw [List.foldl_append]
  rw [digitsVal_from b (List.foldl _ 0 a)]
  rfl

lemma digitsVal_replicate_zero (k : Nat) :
    digitsVal (List.replicate k '0') = 0 := by
  induction k with
  | zero => rfl
  | succ m ih =>
    rw [List.replicate_succ,
      show ('0' :: List.replicate m '0')
        = ['0'] ++ List.replicate m '0' from rfl,
      digitsVal_append, ih]
    simp [digitsVal]

lemma digitsVal_padZero (w : Nat) (l : List Char) :
    digitsVal (padZero w l) = digitsVal l := by
  unfold padZero
  rw [digitsVal_append, digitsVal_replicate_zero]
  simp

lemma digitsVal_natCharsCore :
    ∀ fuel n, n ≠ 0 → n ≤ fuel → digitsVal (natCharsCore fuel n []) = n := by
  intro fuel
  induction fuel with
  | zero => intro n h1 h2; omega
  | succ f ih =>
    intro n h1 h2
    match n with
    | m + 1 =>
      rw [show natCharsCore (f + 1) (m + 1) [] =
          natCharsCore f ((m + 1) / 10) [digitChar ((m + 1) % 10)] from rfl,
        natCharsCore_append, digitsVal_append]
      have hmod : (m + 1) % 10 < 10 := Nat.mod_lt _ (by omega)
      have hd : digitsVal [digitChar ((m + 1) % 10)] = (m + 1) % 10 := by
        show 10 * 0 + ((digitChar ((m + 1) % 10)).toNat - 48) = _
        rw [digitChar_toNat hmod]
        omega
      rw [hd]
      simp only [List.length_cons, List.length_nil, pow_one, zero_add]
      by_cases h0 : (m + 1) / 10 = 0
      · rw [h0, natCharsCore_zero]
        have hdv : digitsVal ([] : List Char) = 0 := rfl
        rw [hdv]
        have := Nat.div_add_mod (m + 1) 10
        omega
      · have hle : (m + 1) / 10 ≤ f := by
          have : (m + 1) / 10 < m + 1 := Nat.div_lt_self (Nat.succ_pos m) (by omega)
          omega
        rw [ih _ h0 hle]
        have := Nat.div_add_mod (m + 1) 10
        omega

lemma digitsVal_natChars (n : Nat) : digitsVal (natChars n) = n := by
  unfold natChars
  split
  · rename_i h; subst h; rfl
  · exact digitsVal_natCharsCore n n (by assumption) le_rfl

lemma natCharsCore_length_le :
    ∀ fuel n k, 1 ≤ k → n < 10 ^ k → (natCharsCore fuel n []).length ≤ k := by
  intro fuel
  induction fuel with
  | zero =>
    intro n k hk _
    match n with
    | 0 => simp [natCharsCore]
    | m + 1 => simp [natCharsCore]
  | succ f ih =>
    intro n k hk hn
    match n with
    | 0 => rw [natCharsCore_zero]; simp
    | m + 1 =>
      rw [show natCharsCore (f + 1) (m + 1) [] =
          natCharsCore f ((m + 1) / 10) [digitChar ((m + 1) % 10)] from rfl,
        natCharsCore_append]
      simp only [List.length_append, List.length_cons, List.length_nil]
      by_cases h0 : (m + 1) / 10 = 0
      · rw [h0, natCharsCore_zero]
        simp
        omega
      · have hk2 : 2 ≤ k := by
          by_contra hk2
          have hk1 : k = 1 := by omega
          subst hk1
          simp only [pow_one] at hn
          omega
        have hdiv : (m + 1) / 10 < 10 ^ (k - 1) := by
          have h10 : 10 * 10 ^ (k - 1) = 10 ^ k := by
            conv_rhs => rw [show k = 1 + (k - 1) by omega, pow_add, pow_one]
          exact Nat.div_lt_of_lt_mul (by omega)
        have := ih ((m + 1) / 10) (k - 1) (by omega) hdiv
        omega

lemma natChars_length_le {n k : Nat} (hk : 1 ≤ k) (hn : n < 10 ^ k) :
    (natChars n).length ≤ k := by
  unfold natChars
  split
  · simpa using hk
  · exact natCharsCore_length_le n n k hk hn

lemma padZero_length_of_le {w : Nat} {l : List Char} (h : l.length ≤ w) :
    (padZero w l).length = w := by
  simp [padZero]
  omega

lemma padZero_digits {w : Nat} {l : List Char}
    (h : ∀ c ∈ l, c.isDigit = true) : ∀ c ∈ padZero w l, c.isDigit = true := by
  intro c hc
  rcases List.mem_append.mp hc with hm | hm
  · rw [List.eq_of_mem_replicate hm]; decide
  · exact h c hm

/-! ### Split and scan lemmas -/

lemma consHd_ne_nil (c : Char) (r : List (List Char)) : consHd c r ≠ [] := by
  unfold consHd
  split <;> simp

lemma splitCh_ne_nil (sep : Char) (l : List Char) : splitCh sep l ≠ [] := by
  cases l with
  | nil => simp [splitCh]
  | cons c cs =>
    rw [splitCh]
    split
    · simp
    · exact consHd_ne_nil _ _

lemma splitCh_not_mem {sep : Char} {l : List Char} (h : sep ∉ l) :
    splitCh sep l = [l] := by
  induction l with
  | nil => rfl
  | cons c cs ih =>
    rw [splitCh, if_neg (by intro hc; exact h (hc ▸ List.mem_cons_self c cs))]
    rw [ih (fun hm => h (List.mem_cons_of_mem c hm))]
    rfl

lemma splitCh_append {sep : Char} {a : List Char} (b : List Char)
    (ha : sep ∉ a) : splitCh sep (a ++ sep :: b) = a :: splitCh sep b := by
  induction a with
  | nil => simp [splitCh]
  | cons c a' ih =>
    rw [List.cons_append, splitCh,
      if_neg (by intro hc; exact ha (hc ▸ List.mem_cons_self c a'))]
    rw [ih (fun hm => ha (List.mem_cons_of_mem c hm))]
    rfl

lemma takeWhile_all {p : Char → Bool} {l : List Char}
    (h : ∀ c ∈ l, p c = true) : l.takeWhile p = l := by
  induction l with
  | nil => rfl
  | cons c cs ih =>
    rw [List.takeWhile_cons, if_pos (h c (List.mem_cons_self c cs))]
    rw [ih (fun x hx => h x (List.mem_cons_of_mem c hx))]

lemma dropWhile_all {p : Char → Bool} {l : List Char}
    (h : ∀ c ∈ l, p c = true) : l.dropWhile p = [] := by
  induction l with
  | nil => rfl
  | cons c cs ih =>
    rw [List.dropWhile_cons, if_pos (h c (List.mem_cons_self c cs))]
    exact ih (fun x hx => h x (List.mem_cons_of_mem c hx))

lemma takeWhile_all_append {p : Char → Bool} {a : List Char} {x : Char}
    (b : List Char) (ha : ∀ c ∈ a, p c = true) (hx : p x = false) :
    ((a ++ x :: b).takeWhile p) = a := by
  induction a with
  | nil => simp [List.takeWhile_cons, hx]
  | cons c a' ih =>
    rw [List.cons_append, List.takeWhile_cons,
      if_pos (ha c (List.mem_cons_self c a'))]
    rw [ih (fun y hy => ha y (List.mem_cons_of_mem c hy))]

lemma dropWhile_all_append {p : Char → Bool} {a : List Char} {x : Char}
    (b : List Char) (ha : ∀ c ∈ a, p c = true) (hx : p x = false) :
    ((a ++ x :: b).dropWhile p) = x :: b := by
  induction a with
  | nil => simp [List.dropWhile_cons, hx]
  | cons c a' ih =>
    rw [List.cons_append, List.dropWhile_cons,
      if_pos (ha c (List.mem_cons_self c a'))]
    exact ih (fun y hy => ha y (List.mem_cons_of_mem c hy))

/-! ### Number-parsing lemmas and claim C7 -/

lemma trimLeft_of_head {c : Char} {r : List Char} (h : isWs c = false) :
    trimLeft (c :: r) = c :: r := by
  unfold trimLeft
  rw [List.dropWhile_cons, if_neg (by simp [h])]

lemma not_mem_of_digits {l : List Char} {x : Char}
    (h : ∀ c ∈ l, c.isDigit = true) (hx : x.isDigit = false) : x ∉ l :=
  fun hm => absurd (h x hm) (by simp [hx])

lemma padZero_ne_nil {w : Nat} {l : List Char} (h : l ≠ []) :
    padZero w l ≠ [] := by
  unfold padZero
  simp [h]

lemma jsParseInt_digits {l : List Char} (hd : ∀ c ∈ l, c.isDigit = true)
    (hne : l ≠ []) : jsParseInt l = some ((digitsVal l : Int)) := by
  match l, hne with
  | c :: r, _ =>
    have hcd : c.isDigit = true := hd c (List.mem_cons_self c r)
    have h1 : c ≠ '-' := ne_of_digit_of_not hcd (by decide)
    have h2 : c ≠ '+' := ne_of_digit_of_not hcd (by decide)
    unfold jsParseInt
    rw [trimLeft_of_head (not_ws_of_digit hcd)]
    simp only [h1, h2, if_false, reduceCtorEq]
    unfold jsParseIntCore
    rw [takeWhile_all hd]
    simp

lemma jsParseFloat_digits_dot {a b : List Char}
    (ha : ∀ c ∈ a, c.isDigit = true) (hb : ∀ c ∈ b, c.isDigit = true)
    (hane : a ≠ []) :
    jsParseFloat (a ++ '.' :: b) = some ((digitsVal a : ℚ) + fracVal b) := by
  match a, hane with
  | c :: a', _ =>
    have ha' : ∀ x ∈ a', x.isDigit = true :=
      fun x hx => ha x (List.mem_cons_of_mem c hx)
    have hcd : c.isDigit = true := ha c (List.mem_cons_self c a')
    have h1 : c ≠ '-' := ne_of_digit_of_not hcd (by decide)
    have h2 : c ≠ '+' := ne_of_digit_of_not hcd (by decide)
    unfold jsParseFloat
    rw [show (c :: a') ++ '.' :: b = c :: (a' ++ '.' :: b) from rfl,
      trimLeft_of_head (not_ws_of_digit hcd)]
    simp only [h1, h2, if_false, reduceCtorEq]
    unfold jsParseFloatCore
    rw [show c :: (a' ++ '.' :: b) = (c :: a') ++ '.' :: b from rfl,
      takeWhile_all_append b ha (by decide),
      dropWhile_all_append b ha (by decide)]
    simp only [List.headD_cons, List.drop_one, List.tail_cons, if_true]
    rw [takeWhile_all hb, if_neg (by simp)]

/-- Claim C7: `timeToSeconds` maps every string of the shape HH:MM:SS.mmm
to its total seconds H*3600 + M*60 + S.mmm, and returns 0 — without
failing — for every string that does not have exactly three
colon-separated fields. -/
theorem claim_C7 :
    (∀ H M S ms : Nat, H ≤ 99 → M ≤ 99 → S ≤ 99 → ms ≤ 999 →
      timeToSeconds (tsShape H M S ms)
        = some ((H : ℚ) * 3600 + (M : ℚ) * 60 + ((S : ℚ) + (ms : ℚ) / 1000)))
    ∧ (∀ t : List Char, (splitCh ':' t).length ≠ 3 →
        timeToSeconds t = some 0) := by
  constructor
  · intro H M S ms hH hM hS hms
    have hdH : ∀ c ∈ padZero 2 (natChars H), c.isDigit = true :=
      padZero_digits (natChars_digits H)
    have hdM : ∀ c ∈ padZero 2 (natChars M), c.isDigit = true :=
      padZero_digits (natChars_digits M)
    have hdS : ∀ c ∈ padZero 2 (natChars S), c.isDigit = true :=
      padZero_digits (natChars_digits S)
    have hdms : ∀ c ∈ padZero 3 (natChars ms), c.isDigit = true :=
      padZero_digits (natChars_digits ms)
    have hcol : (':' : Char).isDigit = false := by decide
    have hnc3 : ':' ∉ padZero 2 (natChars S) ++ '.' :: padZero 3 (natChars ms) := by
      intro hm
      rcases List.mem_append.mp hm with h | h
      · exact not_mem_of_digits hdS hcol h
      · rcases List.mem_cons.mp h with h | h
        · exact absurd h (by decide)
        · exact not_mem_of_digits hdms hcol h
    unfold timeToSeconds tsShape
    simp only [List.append_assoc, List.cons_append]
    rw [splitCh_append _ (not_mem_of_digits hdH hcol),
      splitCh_append _ (not_mem_of_digits hdM hcol),
      splitCh_not_mem hnc3]
    rw [if_pos (by simp)]
    simp only [List.getD_cons_zero, List.getD_cons_succ]
    rw [jsParseInt_digits hdH (padZero_ne_nil (natChars_ne_nil H)),
      jsParseInt_digits hdM (padZero_ne_nil (natChars_ne_nil M)),
      jsParseFloat_digits_dot hdS hdms (padZero_ne_nil (natChars_ne_nil S))]
    simp only [digitsVal_padZero, digitsVal_natChars]
    have hlen : (padZero 3 (natChars ms)).length = 3 :=
      padZero_length_of_le (natChars_length_le (by omega) (by omega))
    unfold fracVal
    rw [digitsVal_padZero, digitsVal_natChars, hlen]
    push_cast
    norm_num
  · intro t ht
    unfold timeToSeconds
    rw [if_neg ht]

/-- Witness for C7 at the concrete timestamp 01:02:03.500 and the
two-field string "ab". -/
theorem claim_C7_witness :
    timeToSeconds (tsShape 1 2 3 500)
      = some ((1 : ℚ) * 3600 + (2 : ℚ) * 60 + ((3 : ℚ) + (500 : ℚ) / 1000))
    ∧ timeToSeconds ['a', 'b'] = some 0 :=
  ⟨claim_C7.1 1 2 3 500 (by norm_num) (by norm_num) (by norm_num)
      (by norm_num),
    claim_C7.2 ['a', 'b'] (by decide)⟩

/-! ### Contiguity of the splitter's chunks -/

lemma lastEnd_nil (s : ℚ) : lastEnd s [] = s := rfl

lemma lastEnd_cons (s : ℚ) (c : TextChunk) (l : List TextChunk) :
    lastEnd s (c :: l) = lastEnd c.stop l := by
  cases l with
  | nil => rfl
  | cons d l' =>
    unfold lastEnd
    rw [List.getLast?_cons_cons]
    cases hg : (d :: l').getLast? with
    | none => simp at hg
    | some e => rfl

lemma lastEnd_concat (s : ℚ) (A : List TextChunk) (c : TextChunk) :
    lastEnd s (A ++ [c]) = c.stop := by
  unfold lastEnd
  rw [List.getLast?_concat]

lemma lastEnd_append (s : ℚ) (A B : List TextChunk) :
    lastEnd s (A ++ B) = lastEnd (lastEnd s A) B := by
  induction A generalizing s with
  | nil => simp [lastEnd_nil]
  | cons c A' ih =>
    rw [List.cons_append, lastEnd_cons, lastEnd_cons, ih]

lemma chain_append {A B : List TextChunk} {s : ℚ} :
    Chain2 s (A ++ B) ↔ Chain2 s A ∧ Chain2 (lastEnd s A) B := by
  induction A generalizing s with
  | nil => simp [Chain2, lastEnd_nil]
  | cons c A' ih =>
    rw [List.cons_append]
    show (c.start = s ∧ Chain2 c.stop (A' ++ B)) ↔ _
    rw [ih, lastEnd_cons]
    show _ ↔ (c.start = s ∧ Chain2 c.stop A') ∧ _
    tauto

lemma chain_nil (s : ℚ) : Chain2 s [] := by
  rw [Chain2]
  trivial

lemma chain_single {s : ℚ} {c : TextChunk} (h : c.start = s) :
    Chain2 s [c] := by
  rw [Chain2]
  exact ⟨h, chain_nil _⟩

lemma lcStepCore_inv {s0 tpc : ℚ} {p : LCState} {w : List Char}
    (h : LCInv s0 p) : LCInv s0 (lcStepCore tpc p w) := by
  unfold lcStepCore
  split
  · refine ⟨chain_append.mpr ⟨h.1, h.2 ▸ ⟨rfl, trivial⟩⟩, ?_⟩
    rw [lastEnd_concat]
  · exact h

lemma lcFlush_chain {s0 dEnd : ℚ} {p1 : LCState} (h : LCInv s0 p1) :
    Chain2 s0 (lcFlush dEnd p1).result := by
  unfold lcFlush
  split
  · exact chain_append.mpr ⟨h.1, h.2 ▸ ⟨rfl, trivial⟩⟩
  · exact h.1

lemma lcRun_chain {tpc dEnd : ℚ} :
    ∀ (ws : List (List Char)) (p : LCState) (s0 : ℚ), LCInv s0 p →
      Chain2 s0 (lcRun tpc dEnd p ws).result := by
  intro ws
  induction ws with
  | nil => intro p s0 h; exact h.1
  | cons w ws ih =>
    intro p s0 h
    match ws with
    | [] => exact lcFlush_chain (lcStepCore_inv h)
    | w2 :: ws' =>
      show Chain2 s0
        (lcRun tpc dEnd (lcStep tpc dEnd p w false) (w2 :: ws')).result
      exact ih _ _ (lcStepCore_inv h)

lemma legacyChunking_chain (text : List Char) (duration startTime : ℚ) :
    Chain2 startTime (legacyChunking text duration startTime) :=
  lcRun_chain _ _ _ ⟨trivial, rfl⟩

lemma lcFlush_lastEnd {dEnd s0 : ℚ} {p1 : LCState} (hc : p1.cur ≠ []) :
    lastEnd s0 (lcFlush dEnd p1).result = dEnd := by
  unfold lcFlush
  rw [if_pos hc]
  exact lastEnd_concat _ _ _

lemma lcStepCore_cur_ne {tpc : ℚ} {p : LCState} {w : List Char}
    (hw : w ≠ []) : (lcStepCore tpc p w).cur ≠ [] := by
  unfold lcStepCore
  split
  · exact hw
  · simp [hw]

lemma lcRun_lastEnd {tpc dEnd : ℚ} :
    ∀ (ws : List (List Char)) (p : LCState) (s0 : ℚ),
      (∀ w, ws.getLast? = some w → w ≠ []) → ws ≠ [] →
      lastEnd s0 (lcRun tpc dEnd p ws).result = dEnd := by
  intro ws
  induction ws with
  | nil => intro p s0 _ hne; exact absurd rfl hne
  | cons w ws ih =>
    intro p s0 hlast _
    match ws with
    | [] =>
      have hw : w ≠ [] := hlast w rfl
      show lastEnd s0 (lcFlush dEnd (lcStepCore tpc p w)).result = dEnd
      exact lcFlush_lastEnd (lcStepCore_cur_ne hw)
    | w2 :: ws' =>
      exact ih _ _
        (fun x hx => hlast x (by rw [List.getLast?_cons_cons]; exact hx))
        (by simp)

lemma splitCh_getLast_ne_nil {sep : Char} :
    ∀ {l : List Char}, l ≠ [] → (∀ c, l.getLast? = some c → c ≠ sep) →
      ∀ w, (splitCh sep l).getLast? = some w → w ≠ [] := by
  intro l
  induction l with
  | nil => intro h; exact absurd rfl h
  | cons c cs ih =>
    intro _ hlast w hw
    match cs with
    | [] =>
      have hc : c ≠ sep := hlast c rfl
      rw [splitCh, if_neg hc] at hw
      simp [splitCh, consHd] at hw
      subst hw
      simp
    | c2 :: cs' =>
      have hlast' : ∀ x, (c2 :: cs').getLast? = some x → x ≠ sep :=
        fun x hx => hlast x (by rw [List.getLast?_cons_cons]; exact hx)
      rw [splitCh] at hw
      split at hw
      · rcases hsp : splitCh sep (c2 :: cs') with _ | ⟨r, rs⟩
        · exact absurd hsp (splitCh_ne_nil _ _)
        · rw [hsp, List.getLast?_cons_cons] at hw
          exact ih (by simp) hlast' w (by rw [hsp]; exact hw)
      · rcases hsp : splitCh sep (c2 :: cs') with _ | ⟨r, rs⟩
        · exact absurd hsp (splitCh_ne_nil _ _)
        · rw [hsp] at hw
          unfold consHd at hw
          match rs, hw with
          | [], hw => simp at hw; subst hw; simp
          | r2 :: rs', hw =>
            rw [List.getLast?_cons_cons] at hw
            refine ih (by simp) hlast' w ?_
            rw [hsp, List.getLast?_cons_cons]
            exact hw

lemma lastNotWs_tail {a : Char} {l : List Char} (h : LastNotWs (a :: l)) :
    LastNotWs l := by
  intro c hc
  match l, hc with
  | x :: l', hc => exact h c (by rw [List.getLast?_cons_cons]; exact hc)

lemma lastNotWs_cons_of_tail {c : Char} {t : List Char} (ht : t ≠ [])
    (h : LastNotWs t) : LastNotWs (c :: t) := by
  intro x hx
  match t, ht with
  | y :: t', _ =>
    rw [List.getLast?_cons_cons] at hx
    exact h x hx

lemma lastNotWs_cons {c : Char} {t : List Char} (hc : isWs c = false)
    (h : LastNotWs t) : LastNotWs (c :: t) := by
  match t with
  | [] => intro x hx; simp at hx; subst hx; exact hc
  | y :: t' => exact lastNotWs_cons_of_tail (by simp) h

lemma head_dropWhile_not (p : Char → Bool) :
    ∀ l : List Char, ∀ c, (l.dropWhile p).head? = some c → p c = false := by
  intro l
  induction l with
  | nil => intro c hc; simp at hc
  | cons a l' ih =>
    intro c hc
    rw [List.dropWhile_cons] at hc
    split at hc
    · exact ih c hc
    · simp at hc
      subst hc
      rename_i h
      simpa using h

lemma getLast_dropWhile (p : Char → Bool) :
    ∀ Z : List Char, Z.dropWhile p ≠ [] →
      (Z.dropWhile p).getLast? = Z.getLast? := by
  intro Z
  induction Z with
  | nil => intro h; exact absurd rfl h
  | cons a Z' ih =>
    intro h
    rw [List.dropWhile_cons]
    rw [List.dropWhile_cons] at h
    split
    · rename_i hp
      rw [if_pos hp] at h
      rw [ih h]
      match Z', h with
      | b :: Z'', _ => rw [List.getLast?_cons_cons]
    · rfl

lemma trim_lastNotWs (l : List Char) : LastNotWs (trim l) := by
  intro c hc
  unfold trim at hc
  rw [List.getLast?_reverse] at hc
  exact head_dropWhile_not isWs _ c hc

lemma trim_headNotWs (l : List Char) : HeadNotWs (trim l) := by
  intro c hc
  unfold trim at hc
  rw [List.head?_reverse] at hc
  by_cases hd : (trimLeft l).reverse.dropWhile isWs = []
  · rw [hd] at hc; simp at hc
  · rw [getLast_dropWhile isWs _ hd, List.getLast?_reverse] at hc
    exact head_dropWhile_not isWs _ c hc

lemma sanitizeGo_ne_nil : ∀ (b : Bool) (l : List Char), l ≠ [] →
    sanitizeGo b l ≠ [] := by
  intro b l h
  rw [sanitizeGo.eq_def]
  split
  · exact absurd rfl h
  · split <;> simp
  · split <;> simp
  · simp

lemma isAmPmLetter_lower_not_ws {c : Char} (h : isAmPmLetter c = true) :
    isWs (lowerAP c) = false := by
  unfold isAmPmLetter at h
  simp only [Bool.or_eq_true, decide_eq_true_eq] at h
  rcases h with ((h | h) | h) | h <;> subst h <;> decide

/-- The catch-all equation of `sanitizeGo`, valid when the tail matches
neither replacement pattern. -/
lemma sanitizeGo_catch {b : Bool} {c : Char} {rest : List Char}
    (h1 : ∀ rest', rest = '.' :: 'm' :: '.' :: rest' → False)
    (h2 : ∀ rest', rest = 'm' :: '.' :: rest' → False) :
    sanitizeGo b (c :: rest) = c :: sanitizeGo (!isWordChar c) rest := by
  rw [sanitizeGo.eq_def]
  split
  · rename_i heq
    exact absurd heq (List.cons_ne_nil _ _)
  · rename_i heq
    exfalso
    injection heq with hc hr
    exact h1 _ hr
  · rename_i heq
    exfalso
    injection heq with hc hr
    exact h2 _ hr
  · rename_i heq
    injection heq with hc hr
    subst hc
    subst hr
    rfl

lemma sanitizeGo_lastNotWs :
    ∀ (b : Bool) (l : List Char), LastNotWs l →
      LastNotWs (sanitizeGo b l) := by
  intro b l
  induction b, l using sanitizeGo.induct with
  | case1 => intro _; intro c hc; simp [sanitizeGo] at hc
  | case2 atB c rest' hcond ih =>
    intro hl
    rw [sanitizeGo, if_pos hcond]
    rcases Bool.and_eq_true_iff.mp hcond with ⟨_, hletter⟩
    have htail : LastNotWs rest' :=
      lastNotWs_tail (lastNotWs_tail (lastNotWs_tail (lastNotWs_tail hl)))
    refine lastNotWs_cons (isAmPmLetter_lower_not_ws hletter) ?_
    by_cases hr : rest' = []
    · subst hr
      exact lastNotWs_cons (by decide) (fun x hx => nomatch hx)
    · exact lastNotWs_cons_of_tail (sanitizeGo_ne_nil _ _ hr) (ih htail)
  | case3 atB c rest' hcond ih =>
    intro hl
    rw [sanitizeGo, if_neg hcond]
    exact lastNotWs_cons_of_tail
      (sanitizeGo_ne_nil _ _ (List.cons_ne_nil _ _))
      (ih (lastNotWs_tail hl))
  | case4 atB c rest' hcond ih =>
    intro hl
    rw [sanitizeGo, if_pos hcond]
    rcases Bool.and_eq_true_iff.mp hcond with ⟨_, hletter⟩
    have htail : LastNotWs rest' :=
      lastNotWs_tail (lastNotWs_tail (lastNotWs_tail hl))
    refine lastNotWs_cons (isAmPmLetter_lower_not_ws hletter) ?_
    by_cases hr : rest' = []
    · subst hr
      exact lastNotWs_cons (by decide) (fun x hx => nomatch hx)
    · exact lastNotWs_cons_of_tail (sanitizeGo_ne_nil _ _ hr) (ih htail)
  | case5 atB c rest' hcond ih =>
    intro hl
    rw [sanitizeGo, if_neg hcond]
    exact lastNotWs_cons_of_tail
      (sanitizeGo_ne_nil _ _ (List.cons_ne_nil _ _))
      (ih (lastNotWs_tail hl))
  | case6 b c rest h1 h2 ih =>
    intro hl
    rw [sanitizeGo_catch h1 h2]
    by_cases hr : rest = []
    · subst hr
      intro x hx
      simp [sanitizeGo] at hx
      subst hx
      exact hl c rfl
    · exact lastNotWs_cons_of_tail (sanitizeGo_ne_nil _ _ hr)
        (ih (lastNotWs_tail hl))

lemma legacyChunking_lastEnd {text : List Char} (duration startTime : ℚ)
    (hne : text ≠ []) (hlast : LastNotWs text) :
    lastEnd startTime (legacyChunking text duration startTime)
      = startTime + duration := by
  unfold legacyChunking
  refine lcRun_lastEnd _ _ _ ?_ (splitCh_ne_nil _ _)
  refine splitCh_getLast_ne_nil hne ?_
  intro c hc hcs
  subst hcs
  exact absurd (hlast _ hc) (by decide)

lemma lcRun_result_ne_nil {tpc dEnd : ℚ} :
    ∀ (ws : List (List Char)) (p : LCState),
      (∀ w, ws.getLast? = some w → w ≠ []) → ws ≠ [] →
      (lcRun tpc dEnd p ws).result ≠ [] := by
  intro ws
  induction ws with
  | nil => intro p _ hne; exact absurd rfl hne
  | cons w ws ih =>
    intro p hlast _
    match ws with
    | [] =>
      have hw : w ≠ [] := hlast w rfl
      show (lcFlush dEnd (lcStepCore tpc p w)).result ≠ []
      unfold lcFlush
      rw [if_pos (lcStepCore_cur_ne hw)]
      simp
    | w2 :: ws' =>
      exact ih _
        (fun x hx => hlast x (by rw [List.getLast?_cons_cons]; exact hx))
        (by simp)

lemma legacyChunking_ne_nil {text : List Char} (duration startTime : ℚ)
    (hne : text ≠ []) (hlast : LastNotWs text) :
    legacyChunking text duration startTime ≠ [] := by
  unfold legacyChunking
  refine lcRun_result_ne_nil _ _ ?_ (splitCh_ne_nil _ _)
  refine splitCh_getLast_ne_nil hne ?_
  intro c hc hcs
  subst hcs
  exact absurd (hlast _ hc) (by decide)

lemma stcStep_inv {tpc s0 : ℚ} {acc : List TextChunk × ℚ}
    {sentence : List Char} (h : STCInv s0 acc) :
    STCInv s0 (stcStep tpc acc sentence) := by
  unfold stcStep
  split
  · exact h
  · split
    · constructor
      · refine chain_append.mpr ⟨h.1, ?_⟩
        rw [← h.2]
        exact legacyChunking_chain _ _ _
      · show (match (legacyChunking _ _ _).getLast? with
            | some c => c.stop
            | none => acc.2) = _
        rw [lastEnd_append, ← h.2]
        rfl
    · constructor
      · refine chain_append.mpr ⟨h.1, ?_⟩
        exact chain_single h.2
      · show _ = lastEnd s0 (acc.1 ++ [_])
        rw [lastEnd_concat]

lemma stcFold_inv (tpc s0 : ℚ) :
    ∀ (raws : List (List Char)) (acc : List TextChunk × ℚ), STCInv s0 acc →
      STCInv s0 (raws.foldl (stcStep tpc) acc) := by
  intro raws
  induction raws with
  | nil => exact fun _ h => h
  | cons r rs ih => exact fun acc h => ih _ (stcStep_inv h)

lemma splitTextIntoChunks_chain (text : List Char) (duration startTime : ℚ) :
    Chain2 startTime (splitTextIntoChunks text duration startTime) := by
  unfold splitTextIntoChunks
  split
  · exact legacyChunking_chain _ _ _
  · exact (stcFold_inv _ _ _ _ ⟨chain_nil _, rfl⟩).1

lemma splitTextIntoChunks_fallback_lastEnd {text : List Char}
    (duration startTime : ℚ) (hne : text ≠ []) (hlast : LastNotWs text)
    (hone : (splitPunctGo false false (sanitize text)).length = 1) :
    lastEnd startTime (splitTextIntoChunks text duration startTime)
      = startTime + duration := by
  unfold splitTextIntoChunks
  rw [if_pos hone]
  exact legacyChunking_lastEnd _ _ (sanitizeGo_ne_nil _ _ hne)
    (sanitizeGo_lastNotWs _ _ hlast)

lemma stcStep_length (tpc : ℚ) (acc : List TextChunk × ℚ)
    (sentence : List Char) :
    acc.1.length + (if trim sentence = [] then 0 else 1)
      ≤ ((stcStep tpc acc sentence).1).length := by
  unfold stcStep
  split
  · simp
  · rename_i h
    split
    · simp only [List.length_append]
      have hnn : legacyChunking (trim sentence)
          (((trim sentence).length : ℚ) * tpc) acc.2 ≠ [] :=
        legacyChunking_ne_nil _ _ h (trim_lastNotWs _)
      have hpos : 0 < (legacyChunking (trim sentence)
          (((trim sentence).length : ℚ) * tpc) acc.2).length :=
        List.length_pos.mpr hnn
      omega
    · simp

lemma stcFold_length (tpc : ℚ) :
    ∀ (raws : List (List Char)) (acc : List TextChunk × ℚ),
      acc.1.length + (raws.filter fun r => !(trim r).isEmpty).length
        ≤ ((raws.foldl (stcStep tpc) acc).1).length := by
  intro raws
  induction raws with
  | nil => intro acc; simp
  | cons r rs ih =>
    intro acc
    rw [List.foldl_cons]
    have h1 := stcStep_length tpc acc r
    have h2 := ih (stcStep tpc acc r)
    rw [List.filter_cons]
    by_cases hr : trim r = []
    · rw [if_pos hr] at h1
      rw [if_neg (by simp [hr])]
      omega
    · rw [if_neg hr] at h1
      rw [if_pos (by simp [hr])]
      simp only [List.length_cons]
      omega

/-! ### Shared concrete evaluations -/

lemma formatTime_zero : formatTime 0 = "00:00:00.000".toList := by
  unfold formatTime jsMod jsTrunc
  norm_num
  decide

lemma formatTime_hundred : formatTime 100 = "00:01:40.000".toList := by
  unfold formatTime jsMod jsTrunc
  norm_num
  decide

/-- `createOptimizedVTT` on no segments and empty full text emits the
header plus one degenerate cue block. -/
lemma createOptimizedVTT_empty :
    createOptimizedVTT [] []
      = "WEBVTT\n\n1\n00:00:00.000 --> 00:01:40.000\n\n\n".toList := by
  have e0 : ((0 : Nat) : ℚ) / ((1 : Nat) : ℚ) * 100 = 0 := by norm_num
  have e1 : min ((((0 : Nat) : ℚ) + 7) / ((1 : Nat) : ℚ) * 100) 100 = 100 := by
    norm_num
  simp only [createOptimizedVTT, createBasicVTT, splitCh, basicGo, joinSpace,
    if_pos, List.length_singleton, e0, e1, formatTime_zero,
    formatTime_hundred, formatVTTSegment]
  decide

/-! ### Claim C1: the passthrough condition -/

/-- Claim C1 counterexample: a segment with 71-character text and duration
1 second (so text length > 70 but duration < 4) yields exactly ONE cue
spanning the whole segment, although the claim demands a split whenever
the text exceeds 70 characters; the code tests
`text.length <= 70 || duration < 4.0` (OR, not AND). -/
theorem claim_C1_counterexample :
    segmentChunks ⟨1, 2, List.replicate 71 'a'⟩
      = [⟨List.replicate 71 'a', 1, 2⟩]
    ∧ 70 < (List.replicate 71 'a').length := by
  constructor
  · unfold segmentChunks
    rw [if_neg (by decide), if_pos (by right; norm_num)]
    decide
  · decide

/-- Claim C1 (amended): a segment with nonzero start and end times and
nonempty text passes through as exactly one cue spanning the segment when
its trimmed text has at most 70 characters OR its duration is under 4
seconds (the code uses OR where the claim says AND); otherwise the
splitting algorithm `splitTextIntoChunks` is applied, and it produces at
least two cues whenever the punctuation split yields at least two
fragments with nonempty trims (a single unbreakable fragment can still
yield one cue). -/
theorem claim_C1_amended (seg : TranscriptionSegment)
    (hs : seg.start ≠ 0) (he : seg.stop ≠ 0) (ht : seg.text ≠ []) :
    ((trim seg.text).length ≤ 70 ∨ seg.stop - seg.start < 4 →
      segmentChunks seg = [⟨trim seg.text, seg.start, seg.stop⟩])
    ∧ (¬((trim seg.text).length ≤ 70 ∨ seg.stop - seg.start < 4) →
      segmentChunks seg
        = splitTextIntoChunks (trim seg.text) (seg.stop - seg.start)
            seg.start)
    ∧ (¬((trim seg.text).length ≤ 70 ∨ seg.stop - seg.start < 4) →
      2 ≤ ((splitPunctGo false false (sanitize (trim seg.text))).filter
          (fun r => !(trim r).isEmpty)).length →
      2 ≤ (segmentChunks seg).length) := by
  have hng : ¬(seg.start = 0 ∨ seg.stop = 0 ∨ seg.text = []) := by
    push_neg
    exact ⟨hs, he, ht⟩
  refine ⟨fun hc => ?_, fun hc => ?_, fun hc hfrag => ?_⟩
  · unfold segmentChunks
    rw [if_neg hng, if_pos hc]
  · unfold segmentChunks
    rw [if_neg hng, if_neg hc]
  · unfold segmentChunks
    rw [if_neg hng, if_neg hc]
    unfold splitTextIntoChunks
    rw [if_neg (by
      intro h1
      have hle := List.length_filter_le
        (fun r => !(trim r).isEmpty)
        (splitPunctGo false false (sanitize (trim seg.text)))
      omega)]
    have hlen := stcFold_length
      ((seg.stop - seg.start) / (((sanitize (trim seg.text)).length : ℚ)))
      (splitPunctGo false false (sanitize (trim seg.text)))
      ([], seg.start)
    simp only [List.length_nil, Nat.zero_add] at hlen
    exact le_trans hfrag hlen

/-- Witness for the amended C1 at a concrete short segment. -/
theorem claim_C1_witness :
    segmentChunks ⟨1, 2, "hi".toList⟩ = [⟨trim "hi".toList, 1, 2⟩] :=
  (claim_C1_amended ⟨1, 2, "hi".toList⟩ (by norm_num) (by norm_num)
    (by decide)).1 (Or.inl (by decide))

/-! ### Claim C2: contiguity of the split cues -/

/-- Claim C2 counterexample: the splitter is applied to the segment
(start 1, end 9, 73-character text with one comma boundary), and the
emitted cues end at 1 + 576/73 ≈ 8.89, strictly before the segment end 9:
the inter-fragment whitespace dropped by the punctuation split shortens
the covered span, so the cues do not partition the segment's interval. -/
theorem claim_C2_counterexample :
    segmentChunks ⟨1, 9, c2text⟩ = splitTextIntoChunks c2text 8 1
    ∧ splitTextIntoChunks c2text 8 1
      = [⟨List.replicate 35 'a' ++ [','], 1, 1 + 288 / 73⟩,
         ⟨List.replicate 36 'b', 1 + 288 / 73, 1 + 576 / 73⟩]
    ∧ lastEnd 1 (splitTextIntoChunks c2text 8 1) ≠ 1 + 8 := by
  have h2 : splitTextIntoChunks c2text 8 1
      = [⟨List.replicate 35 'a' ++ [','], 1, 1 + 288 / 73⟩,
         ⟨List.replicate 36 'b', 1 + 288 / 73, 1 + 576 / 73⟩] := by
    have hsan : sanitize c2text = c2text := by decide
    have hsplit : splitPunctGo false false c2text
        = [List.replicate 35 'a' ++ [','], List.replicate 36 'b'] := by
      decide
    unfold splitTextIntoChunks
    rw [hsan, hsplit, if_neg (by decide)]
    simp only [List.foldl]
    unfold stcStep
    rw [if_neg (by decide), if_neg (by decide), if_neg (by decide),
      if_neg (by decide)]
    have ht1 : trim (List.replicate 35 'a' ++ [','])
        = List.replicate 35 'a' ++ [','] := by decide
    have ht2 : trim (List.replicate 36 'b') = List.replicate 36 'b' := by
      decide
    rw [ht1, ht2]
    have hlen : c2text.length = 73 := by decide
    rw [hlen]
    norm_num [TextChunk.mk.injEq]
  refine ⟨?_, h2, ?_⟩
  · unfold segmentChunks
    rw [if_neg (by decide),
      if_neg (by push_neg; exact ⟨by decide, by norm_num⟩)]
    rw [show trim c2text = c2text from by decide,
      show (9 : ℚ) - 1 = 8 from by norm_num]
  · rw [h2]
    unfold lastEnd
    norm_num

/-- Claim C2 (amended): the cues emitted by the splitting algorithm form a
contiguous chain — the first cue starts at the segment start and every
subsequent cue starts exactly where the previous one ended (no gaps, no
overlaps between consecutive cues) — but the final cue's end equals the
segment end only in the no-punctuation fallback; when punctuation
splitting occurs the dropped inter-fragment whitespace shortens the
covered span. -/
theorem claim_C2_amended (text : List Char) (duration startTime : ℚ)
    (htr : trim text = text) (hne : text ≠ []) :
    Chain2 startTime (splitTextIntoChunks text duration startTime)
    ∧ ((splitPunctGo false false (sanitize text)).length = 1 →
      lastEnd startTime (splitTextIntoChunks text duration startTime)
        = startTime + duration) := by
  refine ⟨splitTextIntoChunks_chain _ _ _, fun hone => ?_⟩
  refine splitTextIntoChunks_fallback_lastEnd _ _ hne ?_ hone
  rw [← htr]
  exact trim_lastNotWs text

/-- Witness for the amended C2 at a concrete no-punctuation text. -/
theorem claim_C2_witness :
    Chain2 2 (splitTextIntoChunks "abc def".toList 5 2)
    ∧ ((splitPunctGo false false (sanitize "abc def".toList)).length = 1 →
      lastEnd 2 (splitTextIntoChunks "abc def".toList 5 2) = 2 + 5) :=
  claim_C2_amended "abc def".toList 5 2 (by decide) (by decide)

/-! ### Claim C3: the end-to-end scenario -/

/-- Claim C3 (code bug): the scenario segment starts at 0, and the
segmenter's guard `!segment.start` treats the number 0 as missing, so the
whole segment is silently skipped: the output is the bare header with no
cues at all, not the claimed two-or-more cues covering 0 to 10 seconds. -/
theorem claim_C3_bug :
    segmentChunks ⟨0, 10, c3text⟩ = []
    ∧ createOptimizedVTT [⟨0, 10, c3text⟩] [] = "WEBVTT\n\n".toList
    ∧ 70 < c3text.length := by
  have h : segmentChunks ⟨0, 10, c3text⟩ = [] := by
    unfold segmentChunks
    rw [if_pos (Or.inl rfl)]
  refine ⟨h, ?_, by decide⟩
  simp only [createOptimizedVTT,
    if_neg (by simp : ¬([(⟨0, 10, c3text⟩ : TranscriptionSegment)] = [])),
    List.foldl, h]
  decide

/-! ### Claim C5: short-segment passthrough text -/

/-- Claim C5 counterexample: the short segment keeps its text verbatim —
"p.m." is NOT sanitized to "pm" on the passthrough path (sanitization
happens only inside the splitter). -/
theorem claim_C5_counterexample :
    segmentChunks ⟨1, 2, "Meeting at 3 p.m. today".toList⟩
      = [⟨"Meeting at 3 p.m. today".toList, 1, 2⟩]
    ∧ sanitize "Meeting at 3 p.m. today".toList
      = "Meeting at 3 pm today".toList
    ∧ "Meeting at 3 p.m. today".toList ≠ "Meeting at 3 pm today".toList := by
  refine ⟨?_, by decide, by decide⟩
  unfold segmentChunks
  rw [if_neg (by decide), if_pos (Or.inl (by decide))]
  decide

/-- Claim C5 (amended): a segment with nonzero timing, nonempty text,
trimmed text of at most 70 characters and duration under 4 seconds
produces exactly one cue spanning `[start, end]` whose text is the
TRIMMED segment text, with no sanitization applied. -/
theorem claim_C5_amended (seg : TranscriptionSegment)
    (hs : seg.start ≠ 0) (he : seg.stop ≠ 0) (ht : seg.text ≠ [])
    (hlen : (trim seg.text).length ≤ 70)
    (_hdur : seg.stop - seg.start < 4) :
    segmentChunks seg = [⟨trim seg.text, seg.start, seg.stop⟩] := by
  unfold segmentChunks
  rw [if_neg (by push_neg; exact ⟨hs, he, ht⟩), if_pos (Or.inl hlen)]

/-- Witness for the amended C5 at the sanitization example text. -/
theorem claim_C5_witness :
    segmentChunks ⟨1, 2, "Meeting at 3 pm today".toList⟩
      = [⟨trim "Meeting at 3 pm today".toList, 1, 2⟩] :=
  claim_C5_amended ⟨1, 2, "Meeting at 3 pm today".toList⟩ (by norm_num)
    (by norm_num) (by decide) (by decide) (by norm_num)

/-! ### Claim C8: the empty-input scenario -/

/-- Claim C8 counterexample: with no segments and empty full text the
output is not the bare header — the word-group fallback runs on the empty
string's single empty word and emits one degenerate cue block. -/
theorem claim_C8_counterexample :
    createOptimizedVTT [] []
      = "WEBVTT\n\n1\n00:00:00.000 --> 00:01:40.000\n\n\n".toList
    ∧ "WEBVTT\n\n1\n00:00:00.000 --> 00:01:40.000\n\n\n".toList
      ≠ "WEBVTT\n\n".toList :=
  ⟨createOptimizedVTT_empty, by decide⟩

/-- Claim C8 (amended): the empty-input call returns the header plus one
degenerate empty-text cue block spanning 0 to 100 seconds; parsing that
output yields zero cues (so the resulting cue DOCUMENT is empty, though
the text is not header-only). -/
theorem claim_C8_amended :
    createOptimizedVTT [] []
      = "WEBVTT\n\n1\n00:00:00.000 --> 00:01:40.000\n\n\n".toList
    ∧ parseVTT (createOptimizedVTT [] []) = [] := by
  refine ⟨createOptimizedVTT_empty, ?_⟩
  rw [createOptimizedVTT_empty]
  decide

/-! ### Claim C10: parser text invariant -/

lemma trim_subset (l : List Char) : ∀ c ∈ trim l, c ∈ l := by
  intro c hc
  unfold trim trimLeft at hc
  rw [List.mem_reverse] at hc
  have h1 := (List.dropWhile_sublist isWs).subset hc
  rw [List.mem_reverse] at h1
  exact (List.dropWhile_sublist isWs).subset h1

lemma goodLine_trim {raw : List Char} (hne : trim raw ≠ [])
    (hnl : '\n' ∉ raw) : GoodLine (trim raw) :=
  ⟨hne, trim_headNotWs raw, trim_lastNotWs raw,
    fun hm => hnl (trim_subset raw _ hm)⟩

lemma headNotWs_append {x y : List Char} (hx : x ≠ []) (h : HeadNotWs x) :
    HeadNotWs (x ++ y) := by
  intro c hc
  match x, hx with
  | a :: x', _ =>
    rw [List.cons_append, List.head?_cons] at hc
    injection hc with hc
    subst hc
    exact h _ rfl

lemma lastNotWs_append {x y : List Char} (hy : y ≠ []) (h : LastNotWs y) :
    LastNotWs (x ++ y) := by
  intro c hc
  induction x with
  | nil => exact h c hc
  | cons a x' ih =>
    rw [List.cons_append] at hc
    rcases hx' : x' ++ y with _ | ⟨b, t⟩
    · exact absurd (List.append_eq_nil.mp hx').2 hy
    · rw [hx', List.getLast?_cons_cons] at hc
      exact ih (by rw [hx']; exact hc)

lemma joinSpace_good : ∀ bufs : List (List Char), bufs ≠ [] →
    (∀ l ∈ bufs, GoodLine l) → GoodLine (joinSpace bufs) := by
  intro bufs
  induction bufs with
  | nil => intro h; exact absurd rfl h
  | cons x xs ih =>
    intro _ hall
    match xs with
    | [] => exact hall x (by simp)
    | y :: ys =>
      have hx : GoodLine x := hall x (by simp)
      have hrest : GoodLine (joinSpace (y :: ys)) :=
        ih (by simp) (fun l hl => hall l (List.mem_cons_of_mem _ hl))
      show GoodLine (x ++ ' ' :: joinSpace (y :: ys))
      refine ⟨by simp [List.append_eq_nil, hx.1], headNotWs_append hx.1 hx.2.1,
        lastNotWs_append (by simp)
          (lastNotWs_cons_of_tail hrest.1 hrest.2.2.1), ?_⟩
      intro hm
      rcases List.mem_append.mp hm with h | h
      · exact hx.2.2.2 h
      · rcases List.mem_cons.mp h with h | h
        · exact absurd h (by decide)
        · exact hrest.2.2.2 h

lemma emitGuard_buf {p : PState} (h : emitGuard p = true) : p.buf ≠ [] := by
  unfold emitGuard at h
  rcases Bool.and_eq_true_iff.mp h with ⟨h1, _⟩
  simpa using h1

lemma pushEntry_good {p : PState} (hp : PGood p) (hb : p.buf ≠ []) :
    PGood (pushEntry p) := by
  refine ⟨fun l hl => absurd hl (by simp [pushEntry]), ?_⟩
  intro e he
  simp only [pushEntry] at he
  rcases List.mem_append.mp he with h | h
  · exact hp.2 e h
  · simp at h
    subst h
    exact joinSpace_good _ hb hp.1

lemma pstepLine_good {p : PState} {line : List Char} (hp : PGood p)
    (hline : line ≠ [] → GoodLine line) : PGood (pstepLine p line) := by
  unfold pstepLine
  split
  · exact hp
  split
  · split
    · rename_i hguard
      exact ⟨(pushEntry_good hp (emitGuard_buf hguard)).1,
        (pushEntry_good hp (emitGuard_buf hguard)).2⟩
    · exact hp
  split
  · split
    · exact hp
    · exact hp
  split
  · split
    · exact hp
    · exact ⟨fun l hl => absurd hl (by simp), hp.2⟩
  split
  · split
    · split
      · rename_i hguard
        exact ⟨fun l hl => absurd hl (by simp),
          (pushEntry_good hp (emitGuard_buf hguard)).2⟩
      · exact ⟨fun l hl => absurd hl (by simp), hp.2⟩
    · rename_i hnh hnb h2
      refine ⟨?_, hp.2⟩
      intro l hl
      rcases List.mem_append.mp hl with h | h
      · exact hp.1 l h
      · simp at h
        subst h
        exact hline (by assumption)
  · exact hp

lemma splitCh_sep_not_mem (sep : Char) :
    ∀ l : List Char, ∀ piece ∈ splitCh sep l, sep ∉ piece := by
  intro l
  induction l with
  | nil =>
    intro piece hp
    simp [splitCh] at hp
    subst hp
    simp
  | cons c cs ih =>
    intro piece hp
    rw [splitCh] at hp
    split at hp
    · rcases List.mem_cons.mp hp with h | h
      · subst h; simp
      · exact ih piece h
    · rename_i hcs
      rcases hsp : splitCh sep cs with _ | ⟨r, rs⟩
      · exact absurd hsp (splitCh_ne_nil _ _)
      · rw [hsp] at hp
        unfold consHd at hp
        rcases List.mem_cons.mp hp with h | h
        · subst h
          intro hm
          rcases List.mem_cons.mp hm with h | h
          · exact hcs h.symm
          · exact ih r (by rw [hsp]; simp) h
        · exact ih piece (by rw [hsp]; exact List.mem_cons_of_mem _ h)

lemma pfold_good :
    ∀ (lns : List (List Char)) (p : PState), PGood p →
      (∀ l ∈ lns, '\n' ∉ l) → PGood (lns.foldl pstep p) := by
  intro lns
  induction lns with
  | nil => exact fun p hp _ => hp
  | cons raw rest ih =>
    intro p hp hnl
    rw [List.foldl_cons]
    refine ih _ ?_ (fun l hl => hnl l (List.mem_cons_of_mem _ hl))
    unfold pstep
    exact pstepLine_good hp
      (fun hne => goodLine_trim hne (hnl raw (by simp)))

/-- Claim C10: every cue emitted by `parseVTT` has nonempty text with no
leading or trailing whitespace and no embedded newline: input lines are
trimmed, nonblank lines of one block are joined by single spaces, and a
block with no nonblank text line is never emitted. -/
theorem claim_C10 (content : List Char) :
    ∀ e ∈ parseVTT content,
      e.text ≠ [] ∧ HeadNotWs e.text ∧ LastNotWs e.text ∧ '\n' ∉ e.text := by
  intro e he
  unfold parseVTT pfinal at he
  have hg : PGood ((splitCh '\n' content).foldl pstep initPState) :=
    pfold_good _ _
      ⟨fun l hl => absurd hl (by simp [initPState]),
        fun x hx => absurd hx (by simp [initPState])⟩
      (fun l hl hm => (splitCh_sep_not_mem '\n' content l hl) hm)
  split at he
  · rename_i hguard
    exact (pushEntry_good hg (emitGuard_buf hguard)).2 e he
  · exact hg.2 e he

/-- Witness for C10 at a concrete document and cue. -/
theorem claim_C10_witness :
    (⟨"00:00:00.000".toList, "00:00:01.000".toList, "Hello".toList⟩ :
        SubtitleEntry).text ≠ []
    ∧ HeadNotWs (⟨"00:00:00.000".toList, "00:00:01.000".toList,
        "Hello".toList⟩ : SubtitleEntry).text
    ∧ LastNotWs (⟨"00:00:00.000".toList, "00:00:01.000".toList,
        "Hello".toList⟩ : SubtitleEntry).text
    ∧ '\n' ∉ (⟨"00:00:00.000".toList, "00:00:01.000".toList,
        "Hello".toList⟩ : SubtitleEntry).text :=
  claim_C10
    "WEBVTT\n\n1\n00:00:00.000 --> 00:00:01.000\nHello\n\n".toList
    ⟨"00:00:00.000".toList, "00:00:01.000".toList, "Hello".toList⟩
    (by decide)

/-! ### Claim C9: totality of parser and segmenter -/

lemma emitGuard_start {p : PState} (h : emitGuard p = true) :
    p.curStart.isSome = true := by
  unfold emitGuard at h
  rcases Bool.and_eq_true_iff.mp h with ⟨_, h2⟩
  cases hs : p.curStart with
  | none => rw [hs] at h2; exact absurd h2 (by simp)
  | some s => simp

lemma pushEntryE_ok {p : PState} (hs : p.curStart.isSome = true)
    (h : POk p) : pushEntryE p = .ok (pushEntry p) := by
  unfold pushEntryE
  unfold POk at h
  rw [hs] at h
  cases hcs : p.curStart with
  | none => rw [hcs] at hs; exact absurd hs (by simp)
  | some s =>
    cases hce : p.curEnd with
    | none => rw [hce] at h; exact absurd h.symm (by simp)
    | some e => rfl

lemma pushEntry_pok (p : PState) : POk (pushEntry p) := by
  unfold POk pushEntry
  rfl

lemma pstepLineE_ok {p : PState} (line : List Char) (h : POk p) :
    pstepLineE p line = .ok (pstepLine p line)
      ∧ POk (pstepLine p line) := by
  unfold pstepLineE pstepLine
  split
  · exact ⟨rfl, h⟩
  split
  · split
    · rename_i hguard
      rw [pushEntryE_ok (emitGuard_start hguard) h]
      exact ⟨rfl, pushEntry_pok p⟩
    · exact ⟨rfl, h⟩
  split
  · split
    · exact ⟨rfl, rfl⟩
    · exact ⟨rfl, h⟩
  split
  · split
    · exact ⟨rfl, rfl⟩
    · exact ⟨rfl, rfl⟩
  split
  · split
    · split
      · rename_i hguard
        rw [pushEntryE_ok (emitGuard_start hguard) h]
        exact ⟨rfl, rfl⟩
      · exact ⟨rfl, rfl⟩
    · exact ⟨rfl, h⟩
  · exact ⟨rfl, h⟩

lemma prunE_ok :
    ∀ (lns : List (List Char)) (p : PState), POk p →
      prunE p lns = .ok (lns.foldl pstep p) ∧ POk (lns.foldl pstep p) := by
  intro lns
  induction lns with
  | nil => exact fun p h => ⟨rfl, h⟩
  | cons raw rest ih =>
    intro p h
    have hstep := pstepLineE_ok (trim raw) h
    rw [List.foldl_cons]
    unfold prunE
    rw [show pstep p raw = pstepLine p (trim raw) from rfl]
    rw [hstep.1]
    have := ih (pstepLine p (trim raw)) hstep.2
    simpa using this

/-- Claim C9: the parser and the segmenter are total over malformed
content.  The instrumented parser — which fails at every non-null
assertion read — always returns `ok` with exactly the plain parser's cues,
for every input string; and the instrumented segmenter pieces — which fail
at every division whose denominator could make the JS arithmetic
meaningless (a zero length) — always return `ok` with the plain results,
for every segment and every fallback text. -/
theorem claim_C9 :
    (∀ content : List Char, parseVTTE content = .ok (parseVTT content))
    ∧ (∀ seg : TranscriptionSegment,
        segmentChunksE seg = .ok (segmentChunks seg))
    ∧ (∀ fullText : List Char,
        createBasicVTTE fullText = .ok (createBasicVTT fullText)) := by
  refine ⟨?_, ?_, ?_⟩
  · intro content
    unfold parseVTTE parseVTT
    have h := prunE_ok (splitCh '\n' content) initPState rfl
    rw [h.1]
    show pfinalE _ = .ok (pfinal _)
    unfold pfinalE pfinal
    split
    · rename_i hguard
      rw [pushEntryE_ok (emitGuard_start hguard) h.2]
      rfl
    · rfl
  · intro seg
    unfold segmentChunksE segmentChunks
    split
    · rfl
    · split
      · rfl
      · rename_i hcond
        unfold splitTextIntoChunksE
        rw [if_neg ?hlen]
        case hlen =>
          intro hzero
          have hne : trim seg.text ≠ [] := by
            intro hnil
            exact hcond (Or.inl (by rw [hnil]; simp))
          exact sanitizeGo_ne_nil true _ hne (List.length_eq_zero.mp hzero)
  · intro fullText
    unfold createBasicVTTE
    rw [if_neg (fun hzero =>
      splitCh_ne_nil ' ' fullText (List.length_eq_zero.mp hzero))]

/-! ### Well-formedness for round-tripping, and arrow-splitting lemmas -/

lemma dropWhile_cons_neg {p : Char → Bool} {a : Char} {l : List Char}
    (h : p a = false) : (a :: l).dropWhile p = a :: l := by
  rw [List.dropWhile_cons, if_neg (by simp [h])]

lemma trim_eq_self {t : List Char} (hne : t ≠ [])
    (hh : isWs (t.headD 'x') = false) (hl : isWs (t.getLastD 'x') = false) :
    trim t = t := by
  unfold trim trimLeft
  match t, hne with
  | a :: t', _ =>
    rw [dropWhile_cons_neg (by simpa using hh)]
    rcases hrev : (a :: t').reverse with _ | ⟨b, rev'⟩
    · exact absurd hrev (by simp)
    · have hlast : (a :: t').getLastD 'x' = b := by
        rw [List.getLastD_eq_getLast?, ← List.head?_reverse, hrev]
        rfl
      rw [dropWhile_cons_neg (by rw [← hlast]; exact hl), ← hrev,
        List.reverse_reverse]

lemma headD_append {a : List Char} (b : List Char) (d : Char)
    (ha : a ≠ []) : (a ++ b).headD d = a.headD d := by
  match a, ha with
  | x :: a', _ => rfl

lemma getLastD_append (a : List Char) {b : List Char} (d : Char)
    (hb : b ≠ []) : (a ++ b).getLastD d = b.getLastD d := by
  rcases List.eq_nil_or_concat b with rfl | ⟨B, x, rfl⟩
  · exact absurd rfl hb
  · simp only [List.concat_eq_append]
    rw [List.getLastD_eq_getLast?, List.getLastD_eq_getLast?,
      ← List.append_assoc, List.getLast?_concat, List.getLast?_concat]

lemma tsOk_edges {ts : List Char} (h : TsOk ts) :
    isWs (ts.headD 'x') = false ∧ isWs (ts.getLastD 'x') = false := by
  obtain ⟨hne, hall⟩ := h
  match ts, hne with
  | a :: t', _ =>
    constructor
    · exact (hall a (by simp)).1
    · rcases hrev : (a :: t').reverse with _ | ⟨b, rev'⟩
      · exact absurd hrev (by simp)
      · have hlast : (a :: t').getLastD 'x' = b := by
          rw [List.getLastD_eq_getLast?, ← List.head?_reverse, hrev]
          rfl
        rw [hlast]
        have : b ∈ a :: t' := by
          rw [← List.mem_reverse, hrev]
          simp
        exact (hall b this).1

lemma trim_append_space {ts : List Char} (hne : ts ≠ [])
    (hh : isWs (ts.headD 'x') = false)
    (hl : isWs (ts.getLastD 'x') = false) : trim (ts ++ [' ']) = ts := by
  unfold trim trimLeft
  match ts, hne with
  | a :: t', _ =>
    rw [List.cons_append, dropWhile_cons_neg (by simpa using hh),
      ← List.cons_append, List.reverse_append]
    simp only [List.reverse_singleton, List.singleton_append]
    rw [List.dropWhile_cons, if_pos (by decide)]
    rcases hrev : (a :: t').reverse with _ | ⟨b, rev'⟩
    · exact absurd hrev (by simp)
    · have hlast : (a :: t').getLastD 'x' = b := by
        rw [List.getLastD_eq_getLast?, ← List.head?_reverse, hrev]
        rfl
      rw [dropWhile_cons_neg (by rw [← hlast]; exact hl), ← hrev,
        List.reverse_reverse]

lemma trim_space_cons {ts : List Char} (hne : ts ≠ [])
    (hh : isWs (ts.headD 'x') = false)
    (hl : isWs (ts.getLastD 'x') = false) : trim (' ' :: ts) = ts := by
  unfold trim trimLeft
  rw [List.dropWhile_cons, if_pos (by decide)]
  match ts, hne with
  | a :: t', _ =>
    rw [dropWhile_cons_neg (by simpa using hh)]
    rcases hrev : (a :: t').reverse with _ | ⟨b, rev'⟩
    · exact absurd hrev (by simp)
    · have hlast : (a :: t').getLastD 'x' = b := by
        rw [List.getLastD_eq_getLast?, ← List.head?_reverse, hrev]
        rfl
      rw [dropWhile_cons_neg (by rw [← hlast]; exact hl), ← hrev,
        List.reverse_reverse]

lemma startsArrow_of_ne {c : Char} (hc : c ≠ '-') (l : List Char) :
    startsArrow (c :: l) = false := by
  unfold startsArrow
  match l with
  | [] => rfl
  | [b] => rfl
  | b :: d :: t => simp [hc]

lemma includesArrow_cons_false {c : Char} {cs : List Char}
    (h : includesArrow (c :: cs) = false) :
    startsArrow (c :: cs) = false ∧ includesArrow cs = false := by
  unfold includesArrow at h
  exact ⟨(Bool.or_eq_false_iff.mp h).1, (Bool.or_eq_false_iff.mp h).2⟩

lemma includesArrow_no_dash {l : List Char} (h : ∀ c ∈ l, c ≠ '-') :
    includesArrow l = false := by
  induction l with
  | nil => rfl
  | cons c cs ih =>
    unfold includesArrow
    rw [startsArrow_of_ne (h c (by simp)) cs,
      ih (fun x hx => h x (List.mem_cons_of_mem _ hx))]
    rfl

lemma splitArrow_none {l : List Char} (h : includesArrow l = false) :
    splitArrow l = [l] := by
  induction l with
  | nil => rfl
  | cons c cs ih =>
    match cs with
    | [] => rfl
    | [b] => rfl
    | b :: d :: t =>
      have hs := (includesArrow_cons_false h).1
      rw [splitArrow, if_neg (by simp [startsArrow] at hs; tauto),
        ih (includesArrow_cons_false h).2]
      rfl

lemma includesArrow_sep (a : List Char) (rest : List Char) :
    includesArrow (a ++ ' ' :: '-' :: '-' :: '>' :: rest) = true := by
  induction a with
  | nil =>
    show includesArrow (' ' :: '-' :: '-' :: '>' :: rest) = true
    unfold includesArrow
    rw [show includesArrow ('-' :: '-' :: '>' :: rest) = true from by
      unfold includesArrow
      rw [show startsArrow ('-' :: '-' :: '>' :: rest) = true from by
        simp [startsArrow]]
      simp]
    simp
  | cons c a' ih =>
    rw [List.cons_append]
    unfold includesArrow
    rw [ih]
    simp

lemma splitArrow_cons3 (a b c : Char) (rest : List Char) :
    splitArrow (a :: b :: c :: rest)
      = if a = '-' ∧ b = '-' ∧ c = '>' then [] :: splitArrow rest
        else consHd a (splitArrow (b :: c :: rest)) := rfl

lemma splitArrow_sep {a : List Char} (b : List Char)
    (ha : includesArrow a = false) :
    splitArrow (a ++ ' ' :: '-' :: '-' :: '>' :: ' ' :: b)
      = (a ++ [' ']) :: splitArrow (' ' :: b) := by
  induction a with
  | nil =>
    rw [List.nil_append, splitArrow_cons3, if_neg (by simp),
      splitArrow_cons3, if_pos ⟨rfl, rfl, rfl⟩]
    rfl
  | cons c a' ih =>
    have ha' : includesArrow a' = false := (includesArrow_cons_false ha).2
    have ih' := ih ha'
    rw [List.cons_append]
    match a' with
    | [] =>
      simp only [List.nil_append] at ih' ⊢
      rw [splitArrow_cons3, if_neg (by simp), ih']
      rfl
    | [d] =>
      simp only [List.cons_append, List.nil_append] at ih' ⊢
      rw [splitArrow_cons3, if_neg (by simp), ih']
      rfl
    | d :: e :: a'' =>
      have hs := (includesArrow_cons_false ha).1
      simp only [List.cons_append] at ih' ⊢
      rw [splitArrow_cons3, if_neg (by simp [startsArrow] at hs; tauto), ih']
      rfl

/-! ### Claim C4: round trip through the cue format -/

lemma headD_mem {l : List Char} (d : Char) (h : l ≠ []) : l.headD d ∈ l := by
  match l, h with
  | a :: l', _ => simp

lemma getLastD_mem {l : List Char} (d : Char) (h : l ≠ []) :
    l.getLastD d ∈ l := by
  rcases List.eq_nil_or_concat l with rfl | ⟨B, x, rfl⟩
  · exact absurd rfl h
  · simp only [List.concat_eq_append]
    rw [List.getLastD_eq_getLast?, List.getLast?_concat]
    simp

lemma natChars_line_facts (n : Nat) :
    trim (natChars n) = natChars n ∧ natChars n ≠ headerChars
      ∧ includesArrow (natChars n) = false ∧ natChars n ≠ []
      ∧ '\n' ∉ natChars n := by
  have hd := natChars_digits n
  have hne := natChars_ne_nil n
  refine ⟨?_, ?_, ?_, hne, ?_⟩
  · exact trim_eq_self hne (not_ws_of_digit (hd _ (headD_mem 'x' hne)))
      (not_ws_of_digit (hd _ (getLastD_mem 'x' hne)))
  · intro heq
    have hw : ('W' : Char).isDigit = true := hd 'W' (by rw [heq]; decide)
    exact absurd hw (by decide)
  · exact includesArrow_no_dash
      (fun c hc => ne_of_digit_of_not (hd c hc) (by decide))
  · intro hm
    exact absurd (hd _ hm) (by decide)

lemma tsline_facts {ts et : List Char} (hts : TsOk ts) (het : TsOk et) :
    trim (ts ++ ' ' :: '-' :: '-' :: '>' :: ' ' :: et)
      = ts ++ ' ' :: '-' :: '-' :: '>' :: ' ' :: et
    ∧ (ts ++ ' ' :: '-' :: '-' :: '>' :: ' ' :: et) ≠ headerChars
    ∧ includesArrow (ts ++ ' ' :: '-' :: '-' :: '>' :: ' ' :: et) = true
    ∧ arrowStart (ts ++ ' ' :: '-' :: '-' :: '>' :: ' ' :: et) = ts
    ∧ arrowEnd (ts ++ ' ' :: '-' :: '-' :: '>' :: ' ' :: et) = et
    ∧ '\n' ∉ (ts ++ ' ' :: '-' :: '-' :: '>' :: ' ' :: et)
    ∧ (ts ++ ' ' :: '-' :: '-' :: '>' :: ' ' :: et) ≠ [] := by
  have hwts := tsOk_edges hts
  have hwet := tsOk_edges het
  have hiats : includesArrow ts = false :=
    includesArrow_no_dash (fun c hc => (hts.2 c hc).2)
  have hiaet : includesArrow et = false :=
    includesArrow_no_dash (fun c hc => (het.2 c hc).2)
  have hsp : splitArrow (ts ++ ' ' :: '-' :: '-' :: '>' :: ' ' :: et)
      = (ts ++ [' ']) :: [' ' :: et] := by
    rw [splitArrow_sep et hiats, splitArrow_none ?hia]
    case hia =>
      unfold includesArrow
      rw [startsArrow_of_ne (by decide) et, hiaet]
      rfl
  have hne : (ts ++ ' ' :: '-' :: '-' :: '>' :: ' ' :: et) ≠ [] := by
    simp [List.append_eq_nil]
  have hia : includesArrow (ts ++ ' ' :: '-' :: '-' :: '>' :: ' ' :: et)
      = true := includesArrow_sep ts (' ' :: et)
  refine ⟨?_, ?_, hia, ?_, ?_, ?_, hne⟩
  · refine trim_eq_self hne ?_ ?_
    · rw [headD_append _ 'x' hts.1]
      exact hwts.1
    · rw [show ts ++ ' ' :: '-' :: '-' :: '>' :: ' ' :: et
          = (ts ++ [' ', '-', '-', '>', ' ']) ++ et from by
            simp [List.append_assoc],
        getLastD_append _ 'x' het.1]
      exact hwet.2
  · intro heq
    rw [heq] at hia
    exact absurd hia (by decide)
  · unfold arrowStart
    rw [hsp]
    show trim (ts ++ [' ']) = ts
    exact trim_append_space hts.1 hwts.1 hwts.2
  · unfold arrowEnd
    rw [hsp]
    show trim (' ' :: et) = et
    exact trim_space_cons het.1 hwet.1 hwet.2
  · intro hm
    rcases List.mem_append.mp hm with h | h
    · exact absurd (hts.2 _ h).1 (by decide)
    · simp only [List.mem_cons] at h
      rcases h with h | h | h | h | h | h
      · exact absurd h (by decide)
      · exact absurd h (by decide)
      · exact absurd h (by decide)
      · exact absurd h (by decide)
      · exact absurd h (by decide)
      · exact absurd (het.2 _ h).1 (by decide)

lemma pstep_header (p : PState) : pstep p headerChars = p := by
  unfold pstep
  rw [show trim headerChars = headerChars from by decide]
  unfold pstepLine
  rw [if_pos rfl]

lemma pstep_empty_clean (E : List SubtitleEntry) :
    pstep (Clean E) [] = Clean E := by
  unfold pstep
  rw [show trim [] = ([] : List Char) from rfl]
  unfold pstepLine Clean
  rw [if_neg (by decide), if_pos rfl]
  simp [emitGuard]

lemma pfinal_clean (E : List SubtitleEntry) : pfinal (Clean E) = E := by
  unfold pfinal Clean
  simp [emitGuard]

lemma pstep_label (E : List SubtitleEntry) (n : Nat) :
    pstep (Clean E) (natChars n) = ⟨E, none, none, [], 1⟩ := by
  obtain ⟨h1, h2, h3, h4, _⟩ := natChars_line_facts n
  unfold pstep
  rw [h1]
  unfold pstepLine Clean
  rw [if_neg h2, if_neg h4]
  simp [h3]

lemma pstep_tsline {ts et : List Char} (E : List SubtitleEntry)
    (hts : TsOk ts) (het : TsOk et) :
    pstep ⟨E, none, none, [], 1⟩ (ts ++ ' ' :: '-' :: '-' :: '>' :: ' ' :: et)
      = ⟨E, some ts, some et, [], 2⟩ := by
  obtain ⟨h1, h2, h3, h4, h5, _, h7⟩ := tsline_facts hts het
  unfold pstep
  rw [h1]
  unfold pstepLine
  rw [if_neg h2, if_neg h7]
  simp [h3, h4, h5]

lemma pstep_text {t : List Char} (E : List SubtitleEntry)
    (ts et : List Char) (ht : TextOk t) :
    pstep ⟨E, some ts, some et, [], 2⟩ t = ⟨E, some ts, some et, [t], 2⟩ := by
  obtain ⟨h1, h2, h3, h4, h5, h6⟩ := ht
  unfold pstep
  rw [trim_eq_self h1 h2 h3]
  unfold pstepLine
  rw [if_neg h6, if_neg h1]
  simp [h5]

lemma pstep_blank_push {ts : List Char} (E : List SubtitleEntry)
    (et t : List Char) (hts : ts ≠ []) :
    pstep ⟨E, some ts, some et, [t], 2⟩ []
      = Clean (E ++ [⟨ts, et, t⟩]) := by
  unfold pstep
  rw [show trim [] = ([] : List Char) from rfl]
  unfold pstepLine
  rw [if_neg (by decide), if_pos rfl, if_pos (by unfold emitGuard; simp [hts])]
  rfl

lemma pfold_block {E : List SubtitleEntry} {e : SubtitleEntry} (n : Nat)
    (he : wfEntry e) (rest : List (List Char)) :
    ((natChars n
        :: (e.startTime ++ ' ' :: '-' :: '-' :: '>' :: ' ' :: e.endTime)
        :: e.text :: [] :: rest).foldl pstep (Clean E))
      = rest.foldl pstep (Clean (E ++ [e])) := by
  rw [List.foldl_cons, pstep_label, List.foldl_cons,
    pstep_tsline E he.1 he.2.1, List.foldl_cons,
    pstep_text E _ _ he.2.2, List.foldl_cons, pstep_blank_push E _ _ he.1.1]

lemma splitNl_block (label tsline text rest : List Char)
    (h1 : '\n' ∉ label) (h2 : '\n' ∉ tsline) (h3 : '\n' ∉ text) :
    splitCh '\n'
        (label ++ ('\n' :: (tsline ++ ('\n' ::
          (text ++ ('\n' :: ('\n' :: rest)))))))
      = label :: tsline :: text :: [] :: splitCh '\n' rest := by
  rw [splitCh_append _ h1, splitCh_append _ h2, splitCh_append _ h3,
    splitCh, if_pos rfl]

lemma parse_convertGo :
    ∀ (es : List SubtitleEntry) (E : List SubtitleEntry) (i : Nat),
      (∀ e ∈ es, wfEntry e) →
      pfinal ((splitCh '\n' (convertGo i es)).foldl pstep (Clean E))
        = E ++ es := by
  intro es
  induction es with
  | nil =>
    intro E i _
    show pfinal ((splitCh '\n' []).foldl pstep (Clean E)) = E ++ []
    simp only [splitCh, List.foldl]
    rw [pstep_empty_clean, pfinal_clean, List.append_nil]
  | cons e es' ih =>
    intro E i hwf
    have hwe : wfEntry e := hwf e (by simp)
    have hshape : convertGo i (e :: es')
        = natChars (i + 1) ++ ('\n' ::
          ((e.startTime ++ ' ' :: '-' :: '-' :: '>' :: ' ' :: e.endTime)
            ++ ('\n' :: (e.text ++ ('\n' :: ('\n' ::
              convertGo (i + 1) es')))))) := by
      show vttBlock i e ++ convertGo (i + 1) es' = _
      unfold vttBlock
      simp [List.append_assoc]
    rw [hshape, splitNl_block _ _ _ _ (natChars_line_facts (i + 1)).2.2.2.2
      (tsline_facts hwe.1 hwe.2.1).2.2.2.2.2.1 hwe.2.2.2.2.2.1]
    rw [show (natChars (i + 1)
        :: (e.startTime ++ ' ' :: '-' :: '-' :: '>' :: ' ' :: e.endTime)
        :: e.text :: [] :: splitCh '\n' (convertGo (i + 1) es')).foldl
          pstep (Clean E)
      = (splitCh '\n' (convertGo (i + 1) es')).foldl pstep
          (Clean (E ++ [e])) from pfold_block (i + 1) hwe _]
    rw [ih (E ++ [e]) (i + 1) (fun x hx => hwf x (List.mem_cons_of_mem _ hx))]
    simp

/-- Claim C4 counterexample: a cue whose text carries an embedded newline
(allowed by the specification's data model) does not round-trip — the
parser splits it into lines and rejoins them with a space. -/
theorem claim_C4_counterexample :
    parseVTT (convertToVTT [⟨"00:00:00.000".toList, "00:00:01.000".toList,
        "a\nb".toList⟩])
      = [⟨"00:00:00.000".toList, "00:00:01.000".toList, "a b".toList⟩]
    ∧ ("a b".toList : List Char) ≠ "a\nb".toList := by
  constructor
  · decide
  · decide

/-- Claim C4 (amended): parsing the VTT serialization of a nonempty cue
list reproduces the same (startTime, endTime, text) triples, provided
every cue has whitespace-free, dash-free, nonempty timestamp strings and a
text that is a single nonempty trimmed line, is not the header literal,
and contains no arrow token.  (Texts with embedded newlines, leading or
trailing whitespace, or an arrow do not round-trip.) -/
theorem claim_C4_amended (es : List SubtitleEntry) (_hne : es ≠ [])
    (hwf : ∀ e ∈ es, wfEntry e) : parseVTT (convertToVTT es) = es := by
  unfold parseVTT convertToVTT
  rw [show headerChars ++ '\n' :: '\n' :: convertGo 0 es
    = headerChars ++ ('\n' :: ('\n' :: convertGo 0 es)) from rfl]
  rw [splitCh_append _ (by decide), splitCh, if_pos rfl]
  rw [List.foldl_cons, show initPState = Clean [] from rfl, pstep_header,
    List.foldl_cons, pstep_empty_clean]
  exact parse_convertGo es [] 0 hwf

/-- Witness for the amended C4 at a concrete two-cue list. -/
theorem claim_C4_witness :
    parseVTT (convertToVTT
        [⟨"00:00:00.000".toList, "00:00:01.000".toList, "Hello".toList⟩,
         ⟨"00:00:01.000".toList, "00:00:02.000".toList, "World x".toList⟩])
      = [⟨"00:00:00.000".toList, "00:00:01.000".toList, "Hello".toList⟩,
         ⟨"00:00:01.000".toList, "00:00:02.000".toList, "World x".toList⟩] :=
  claim_C4_amended _ (by decide)
    (by simp only [wfEntry, TsOk, TextOk]; decide)

/-! ### Claim C6: defaulted positional labels in the editor parser -/

lemma estep_tsline_from0 {ts et : List Char} (E : List EditorEntry)
    (hts : TsOk ts) (het : TsOk et) :
    estep (ECleanE E) (ts ++ ' ' :: '-' :: '-' :: '>' :: ' ' :: et)
      = ⟨E, none, some ts, some et, [], 2⟩ := by
  obtain ⟨h1, h2, h3, h4, h5, _, h7⟩ := tsline_facts hts het
  unfold estep
  rw [h1]
  unfold estepLine ECleanE
  rw [if_neg h2, if_neg h7]
  simp [h3, h4, h5]

lemma estep_text_e {t : List Char} (E : List EditorEntry)
    (ts et : List Char) (ht : TextOk t) :
    estep ⟨E, none, some ts, some et, [], 2⟩ t
      = ⟨E, none, some ts, some et, [t], 2⟩ := by
  obtain ⟨h1, h2, h3, h4, h5, h6⟩ := ht
  unfold estep
  rw [trim_eq_self h1 h2 h3]
  unfold estepLine
  rw [if_neg h6, if_neg h1]
  simp [h5]

lemma estep_blank_push {ts : List Char} (E : List EditorEntry)
    (et t : List Char) (hts : ts ≠ []) :
    estep ⟨E, none, some ts, some et, [t], 2⟩ []
      = ECleanE (E ++ [⟨natChars E.length, ts, et, t⟩]) := by
  unfold estep
  rw [show trim [] = ([] : List Char) from rfl]
  unfold estepLine
  rw [if_neg (by decide), if_pos rfl,
    if_pos (by unfold eEmitGuard; simp [hts])]
  rfl

/-- Claim C6: in the editor's parser, a cue block whose timestamp line
immediately follows a blank line (so no label line precedes it) still
yields a cue, and that cue — parsed without an explicit sequence label —
is assigned the zero-based emission index (the number of previously
emitted cues, rendered as a decimal string) as its label. -/
theorem claim_C6 (E : List EditorEntry) {ts et t : List Char}
    (hts : TsOk ts) (het : TsOk et) (ht : TextOk t)
    (rest : List (List Char)) :
    (((ts ++ ' ' :: '-' :: '-' :: '>' :: ' ' :: et) :: t :: [] :: rest).foldl
        estep (ECleanE E))
      = rest.foldl estep (ECleanE (E ++ [⟨natChars E.length, ts, et, t⟩])) := by
  rw [List.foldl_cons, estep_tsline_from0 E hts het, List.foldl_cons,
    estep_text_e E _ _ ht, List.foldl_cons, estep_blank_push E _ _ hts.1]

/-- Witness for C6: one label-less block after two already-emitted cues is
assigned the label "2". -/
theorem claim_C6_witness :
    ((("00:00:05.000".toList ++ ' ' :: '-' :: '-' :: '>' :: ' ' ::
          "00:00:06.000".toList) :: "Hi".toList :: [] :: []).foldl estep
        (ECleanE
          [⟨"0".toList, "a".toList, "b".toList, "x".toList⟩,
           ⟨"1".toList, "c".toList, "d".toList, "y".toList⟩]))
      = [].foldl estep (ECleanE
          ([⟨"0".toList, "a".toList, "b".toList, "x".toList⟩,
            ⟨"1".toList, "c".toList, "d".toList, "y".toList⟩] ++
           [⟨"2".toList, "00:00:05.000".toList, "00:00:06.000".toList,
             "Hi".toList⟩])) :=
  claim_C6
    [⟨"0".toList, "a".toList, "b".toList, "x".toList⟩,
     ⟨"1".toList, "c".toList, "d".toList, "y".toList⟩]
    (by simp only [TsOk]; decide) (by simp only [TsOk]; decide)
    (by simp only [TextOk]; decide) []

end AutoSub
